/-
  Verification of the gh-biome coordination layer.

  Shallow embedding of the core data model and operations of the repository:
  owner reference parsing (internal/biome/owner.go), remote classification and
  reconciliation (internal/biome/biome.go), the git-config data model used via
  go-git's plumbing/format/config package, the ref-transaction writer protocol,
  and the config editor's error paths (internal/config/editor.go).

  External collaborators (the GitHub directory service, `git check-ref-format`,
  `git for-each-ref`, `git update-ref --stdin`, the `git config edit` lock
  workflow) are modelled as explicit parameters or as small state-transition
  functions that follow the documented behavior of those tools.
-/

import Mathlib

namespace GhBiome

deriving instance DecidableEq for Except

/-! ### Generic list machinery

go-git's `Config.Section`, `Section.Subsection` and friends search their
backing slices from the END (`for i := len(xs) - 1; i >= 0; i--`), mutating the
last matching element in place, or appending a fresh element when none matches.
We model this functionally: the searches are `List.find?` on the reversed list,
and the in-place mutation is `modifyFirst` on the reversed list. -/

/-- Replace the first element satisfying `p` by its image under `f`;
`none` when no element matches. -/
def modifyFirst (p : α → Bool) (f : α → α) : List α → Option (List α)
  | [] => none
  | x :: xs => if p x then some (f x :: xs) else (modifyFirst p f xs).map (x :: ·)

/-- Modify the first element satisfying `p`, or prepend `f mk` when none does.
Applied to reversed lists this is exactly go-git's "mutate the last matching
element or append a new one" pattern. -/
def updFirst (p : α → Bool) (f : α → α) (mk : α) (l : List α) : List α :=
  match modifyFirst p f l with
  | some l2 => l2
  | none => f mk :: l

/-! ### Strings: Go `strings.CutPrefix`, `strings.Split` (on "/"), `path.Clean`, `path.Join` -/

/-- Embeds `strings.HasPrefix` via the character list (the list route keeps every
definition reducible by the kernel, which `String.startsWith` is not). -/
def strStarts (pre s : String) : Bool := pre.toList.isPrefixOf s.toList

/-- Drop the first `n` characters (ASCII strings throughout, so bytes and
characters coincide). -/
def strDrop (s : String) (n : Nat) : String := String.mk (s.toList.drop n)

/-- Character count (equals Go's byte length on the ASCII strings used here). -/
def strLen (s : String) : Nat := s.toList.length

/-- Go `strings.CutPrefix(s, pre)`: the string with `pre` removed and whether
it was present; `(s, false)` when `pre` is not a prefix. -/
def cutPre (pre s : String) : String × Bool :=
  if strStarts pre s then (strDrop s (strLen pre), true) else (s, false)

/-- Go `strings.Split(s, "/")` on the character list: split around every
occurrence of `'/'`; the empty list of characters yields `[[]]`. -/
def splitSlashCh : List Char → List (List Char)
  | [] => [[]]
  | c :: cs =>
    match splitSlashCh cs, decide (c = '/') with
    | r, true => [] :: r
    | p :: ps, false => (c :: p) :: ps
    | [], false => [[c]]

/-- Go `strings.Split(s, "/")`. -/
def splitSlash (s : String) : List String :=
  (splitSlashCh s.toList).map (fun cs => String.mk cs)

/-- Go `path.Clean`'s component processing: push normal components, skip `""`
and `"."`, let `".."` pop (or accumulate at the front of a relative path);
the accumulator is kept reversed. -/
def cleanStack (rooted : Bool) : List String → List String → List String
  | acc, [] => acc.reverse
  | acc, c :: cs =>
    if c = "" ∨ c = "." then cleanStack rooted acc cs
    else if c = ".." then
      match acc with
      | [] => if rooted then cleanStack rooted [] cs else cleanStack rooted [".."] cs
      | a :: rest =>
        if a = ".." then cleanStack rooted (".." :: a :: rest) cs
        else cleanStack rooted rest cs
    else cleanStack rooted (c :: acc) cs

/-- Go `path.Clean`. -/
def pathClean (p : String) : String :=
  if p = "" then "."
  else
    let rooted := strStarts "/" p
    let out := cleanStack rooted [] (splitSlash p)
    let s := String.intercalate "/" out
    let s2 := if rooted then "/" ++ s else s
    if s2 = "" then "." else s2

/-- Go `path.Join`: concatenate the non-empty elements with `"/"` and `Clean`
the result (empty elements only ever contribute duplicate separators, which
`Clean` removes, so filtering them first is equivalent); all-empty input gives
`""`. -/
def pathJoin (elems : List String) : String :=
  let ne := elems.filter (fun e => e ≠ "")
  if ne.isEmpty then "" else pathClean (String.intercalate "/" ne)

/-! ### Owner (internal/biome/owner.go) -/

def defaultOwnerHost : String := "github.com"

/-- Owner of GitHub repositories: `host` is the GitHub server name, `name` the
user or organization name. -/
structure Owner where
  host : String
  name : String
deriving DecidableEq, Repr

/-- Embeds `ParseOwner` (owner.go): strip an optional `http://` then `https://`
scheme, split on `/`; two segments give `host`/`name`, one segment is a bare
name (rejected when a scheme was present or the segment is empty), anything
else is rejected; an empty host defaults to `github.com`. Fallible Go code is
modelled with `Option`. -/
def ParseOwner (ownerRef : String) : Option Owner :=
  let c1 := cutPre "http://" ownerRef
  let c2 := cutPre "https://" c1.1
  let protocolIncluded := c1.2 || c2.2
  match splitSlash c2.1 with
  | [h, n] => some { host := if h = "" then defaultOwnerHost else h, name := n }
  | [n] =>
    if protocolIncluded || n = "" then none
    else some { host := defaultOwnerHost, name := n }
  | _ => none

/-- Embeds `Owner.String()` (owner.go): `path.Join(host, name)`. -/
def Owner.string (o : Owner) : String := pathJoin [o.host, o.name]

/-- Modelled from the spec: `Owner.RemoteGroup` is referenced by the tests
(`owner_test.go`, `biome_test.go`) and by the fetch command, but its definition
is not among the sources; the spec describes it as a deterministic content hash
of the canonical string rendered as a short fixed-width token, and explicitly
allows any deterministic, stable bucketing hash (design note on SHA1-based
grouping). We use a 32-bit polynomial content hash rendered in hex. -/
def specHash (s : String) : Nat :=
  s.toList.foldl (fun h c => (h * 33 + c.toNat) % (2 ^ 32)) 5381

/-- Modelled from the spec: hex rendering for the group tag. -/
def Owner.RemoteGroup (o : Owner) : String :=
  "g-" ++ (Nat.toDigits 16 (specHash o.string)).asString

/-- Go `strings.TrimPrefix(s, pre)`. -/
def trimPre (pre s : String) : String :=
  if strStarts pre s then strDrop s (strLen pre) else s

/-! ### remote and repository (internal/biome/biome.go) -/

/-- The `remote` struct of biome.go: a git remote of the biome plus the
GitHub-side status flags and the target of its symbolic HEAD (empty when the
remote repository has no default branch). -/
structure remote where
  Name : String
  FetchURL : String
  Archived : Bool
  Disabled : Bool
  Locked : Bool
  Head : String
deriving DecidableEq, Repr

/-- Embeds `remote.FetchRefspec` (remote.go): the fetch mapping
`+refs/*:refs/remotes/<name>/*`; the destination pattern is validated by the
external `git check-ref-format --refspec-pattern` subprocess, modelled by the
boolean parameter `valid`. -/
def remote.FetchRefspec (valid : String → Bool) (r : remote) : Except String String :=
  let src := "refs/*"
  let dst := "refs/remotes/" ++ r.Name ++ "/*"
  if valid dst then .ok ("+" ++ src ++ ":" ++ dst)
  else .error ("refspec pattern invalid: " ++ dst)

/-- The `ref` struct of biome.go (GraphQL default-branch reference). The Go
field `Prefix` is rendered as `RefPrefix`. -/
structure ref where
  Name : String
  RefPrefix : String
deriving DecidableEq, Repr

/-- The `repository` struct of biome.go (GraphQL repository node). -/
structure repository where
  IsDisabled : Bool
  IsArchived : Bool
  IsLocked : Bool
  URL : String
  DefaultBranchRef : Option ref
deriving DecidableEq, Repr

/-- Embeds `repository.Remote` (biome.go): `Name` is `URL[8:]` (the URL with the
8-byte scheme `https://` removed), `FetchURL` is `URL + ".git"`, the status
flags are copied, and `Head` is
`path.Join("refs/remotes/", name, TrimPrefix(ref.Prefix, "refs/"), ref.Name)`
when a default branch exists. Go's slice expression `URL[8:]` panics when the
URL is shorter than 8 bytes; the total embedding returns `none` there. -/
def repository.Remote (r : repository) : Option remote :=
  if 8 ≤ strLen r.URL then
    let rem : remote :=
      { Name := strDrop r.URL 8, FetchURL := r.URL ++ ".git",
        Archived := r.IsArchived, Disabled := r.IsDisabled,
        Locked := r.IsLocked, Head := "" }
    some (match r.DefaultBranchRef with
      | none => rem
      | some dbr =>
        { rem with
            Head := pathJoin
              ["refs/remotes/", rem.Name, trimPre "refs/" dbr.RefPrefix, dbr.Name] })
  else none

/-- The five remote categories (remote.go `RemoteCategory`). -/
inductive RemoteCategory
  | active | archived | disabled | locked | unsupported
deriving DecidableEq, Repr

/-- The git-config option key each category is stored under
(`biome.remotes.<key>`). -/
def catKey : RemoteCategory → String
  | .active => "active"
  | .archived => "archived"
  | .disabled => "disabled"
  | .locked => "locked"
  | .unsupported => "unsupported"

/-- The classification rule applied by the `UpdateRemotes` loop, in source
order: disabled first, then locked, then refspec validity, then archived,
else active. -/
def rcat (valid : String → Bool) (r : remote) : RemoteCategory :=
  if r.Disabled then .disabled
  else if r.Locked then .locked
  else
    match r.FetchRefspec valid with
    | .error _ => .unsupported
    | .ok _ => if r.Archived then .archived else .active

/-- Categories whose remotes get an actual git remote declaration
(remote.go `FetchableRemoteCategories`). -/
def fetchable (c : RemoteCategory) : Bool :=
  c = .active || c = .archived

/-! ### The git config data model (go-git plumbing/format/config)

The biome edits its configuration through go-git's config model: a `Config`
holds sections, a section holds options and named subsections. Section names
and option keys compare case-insensitively (`strings.EqualFold`; all keys in
this program are ASCII, so we model the fold with `toLower`), subsection names
compare exactly. `Config.Section` and `Section.Subsection` search from the end
of the backing slice and append a fresh element when none matches; we model
that with `updFirst`/`find?` on the reversed list. -/

/-- Embeds `strings.EqualFold` on the ASCII names and keys used by this program. -/
def charFold (c : Char) : Char :=
  if 'A' ≤ c ∧ c ≤ 'Z' then Char.ofNat (c.toNat + 32) else c

def eqFold (a b : String) : Bool :=
  a.toList.map charFold == b.toList.map charFold

structure GitOption where
  Key : String
  Value : String
deriving DecidableEq, Repr

/-- Embeds `Options.GetAll`. -/
def optGetAll (key : String) (opts : List GitOption) : List String :=
  (opts.filter (fun o => eqFold o.Key key)).map (·.Value)

/-- Embeds `Options.withAddedOption` (`AddOption`). -/
def optAdd (key value : String) (opts : List GitOption) : List GitOption :=
  opts ++ [⟨key, value⟩]

/-- Embeds `Options.withoutOption` (`RemoveOption`). -/
def optRemove (key : String) (opts : List GitOption) : List GitOption :=
  opts.filter (fun o => !(eqFold o.Key key))

/-- Embeds `Options.withSettedOption` (`SetOption`) for one value: replace the first
matching option and drop any further matches, or append when absent. -/
def optSet (key value : String) : List GitOption → List GitOption
  | [] => [⟨key, value⟩]
  | o :: os =>
    if eqFold o.Key key then
      ⟨key, value⟩ :: os.filter (fun o2 => !(eqFold o2.Key key))
    else o :: optSet key value os

structure GitSubsection where
  Name : String
  Options : List GitOption
deriving DecidableEq, Repr

structure GitSection where
  Name : String
  Options : List GitOption
  Subsections : List GitSubsection
deriving DecidableEq, Repr

structure Config where
  Sections : List GitSection
deriving DecidableEq, Repr

def secMatch (n : String) (s : GitSection) : Bool := eqFold s.Name n

def subMatch (n : String) (ss : GitSubsection) : Bool := ss.Name == n

/-- Embeds `Config.Section(n)` as a read: the last section whose name folds to `n`,
or a fresh empty section. -/
def Config.sectionGet (c : Config) (n : String) : GitSection :=
  (c.Sections.reverse.find? (secMatch n)).getD ⟨n, [], []⟩

/-- Embeds `Config.Section(n)` followed by a mutation of the returned pointer:
update the last matching section, or append a fresh one and update it. -/
def Config.withSection (c : Config) (n : String) (f : GitSection → GitSection) :
    Config :=
  ⟨(updFirst (secMatch n) f ⟨n, [], []⟩ c.Sections.reverse).reverse⟩

/-- Embeds `Section.Subsection(n)` as a read. -/
def GitSection.subsectionGet (s : GitSection) (n : String) : GitSubsection :=
  (s.Subsections.reverse.find? (subMatch n)).getD ⟨n, []⟩

/-- Embeds `Section.Subsection(n)` followed by a mutation of the returned pointer. -/
def GitSection.withSubsection (s : GitSection) (n : String)
    (f : GitSubsection → GitSubsection) : GitSection :=
  { s with
    Subsections := (updFirst (subMatch n) f ⟨n, []⟩ s.Subsections.reverse).reverse }

/-! ### Projections and updates of the biome configuration

Each Go statement of biome.go that touches the configuration is one of the
following updaters; the projections are the corresponding reads. -/

/-- Embeds `cfg.Section("biome").OptionAll("owners")`. -/
def ownersList (c : Config) : List String :=
  optGetAll "owners" (c.sectionGet "biome").Options

/-- The options of `cfg.Section("biome").Subsection("remotes")`. -/
def biomeRemotesOpts (c : Config) : List GitOption :=
  ((c.sectionGet "biome").subsectionGet "remotes").Options

/-- The remote names stored under `biome.remotes.<k>`. -/
def catList (c : Config) (k : String) : List String :=
  optGetAll k (biomeRemotesOpts c)

/-- The subsections of `cfg.Section("remote")`: the git remote declarations. -/
def remoteSubs (c : Config) : List GitSubsection :=
  (c.sectionGet "remote").Subsections

/-- The names of the declared git remotes. -/
def declNames (c : Config) : List String :=
  (remoteSubs c).map (·.Name)

/-- Embeds `cfg.Section("remote").Subsection(n)`: one remote declaration. -/
def remoteDecl (c : Config) (n : String) : GitSubsection :=
  (c.sectionGet "remote").subsectionGet n

/-- The remote names stored under `remotes.<g>` (owner group lists). -/
def groupList (c : Config) (g : String) : List String :=
  optGetAll g (c.sectionGet "remotes").Options

/-- Embeds `biomeRemotesSubsection.AddOption(k, v)`. -/
def addCat (k v : String) (c : Config) : Config :=
  c.withSection "biome" (fun s => s.withSubsection "remotes"
    (fun ss => { ss with Options := optAdd k v ss.Options }))

/-- The chained `RemoveOption` calls that clear the five category lists. -/
def clearCats (c : Config) : Config :=
  c.withSection "biome" (fun s => s.withSubsection "remotes"
    (fun ss =>
      { ss with
          Options := optRemove "unsupported" (optRemove "locked"
            (optRemove "disabled" (optRemove "archived"
              (optRemove "active" ss.Options)))) }))

/-- Embeds `gitRemoteSection.Subsections = nil`. -/
def clearDecls (c : Config) : Config :=
  c.withSection "remote" (fun s => { s with Subsections := [] })

/-- The three `SetOption` calls recording one remote declaration:
`url`, `fetch`, `tagOpt`. -/
def setDecl (n url fs : String) (c : Config) : Config :=
  c.withSection "remote" (fun s => s.withSubsection n
    (fun ss =>
      { ss with
          Options := optSet "tagOpt" "--no-tags" (optSet "fetch" fs
            (optSet "url" url ss.Options)) }))

/-- Modelled from the spec: record a remote name under its owner's group key
`remotes.<group-tag>` (spec step 3 and configuration key list); this step of
`UpdateRemotes` is not among the sources, only its tests
(`expectGitRemoteGroups`) and its consumer (the fetch command) are. -/
def addGroup (g n : String) (c : Config) : Config :=
  c.withSection "remotes" (fun s => { s with Options := optAdd g n s.Options })

/-! ### SortedUnique (internal/util/slices/slices.go) and the owner store -/

/-- Embeds `slicesutil.SortedUnique`: the input in sorted order with duplicates
removed (Go realizes it as the sorted key set of a map built from the slice;
we realize the same specification as insertion sort followed by `dedup`). -/
def SortedUnique (l : List String) : List String :=
  (List.insertionSort (· ≤ ·) l).dedup

/-- Embeds `Section("biome").OptionAll("owners")` is `ownersList`; this is the writer
`RemoveOption("owners")` followed by one `AddOption("owners", v)` per value,
as in `AddOwners` and `RemoveOwners`. -/
def setOwnersList (vs : List String) (c : Config) : Config :=
  c.withSection "biome" (fun s =>
    { s with
        Options := vs.foldl (fun os v => optAdd "owners" v os)
          (optRemove "owners" s.Options) })

/-- Embeds `getOwners` (biome.go): parse every stored owner reference, collecting the
parsed owners and the unparseable entries (Go joins the latter into one
aggregate error). -/
def getOwnersRaw (cfg : Config) : List Owner × List String :=
  (ownersList cfg).foldl
    (fun acc s =>
      match ParseOwner s with
      | some o => (acc.1 ++ [o], acc.2)
      | none => (acc.1, acc.2 ++ [s]))
    ([], [])

/-- Embeds `Owners` (biome.go): the parsed owner list, or the aggregate parse error. -/
def OwnersOf (cfg : Config) : Except (List String) (List Owner) :=
  let r := getOwnersRaw cfg
  if r.2.isEmpty then .ok r.1 else .error r.2

/-- Embeds `validateOwners` (biome.go): collect one error per owner the directory
service rejects; the service is the external parameter `validate`
(`none` = owner exists). Each entry identifies the offending owner. -/
def validateOwners (validate : Owner → Option String) (owners : List Owner) :
    List (Owner × String) :=
  owners.filterMap (fun o => (validate o).map (fun e => (o, e)))

/-- The config transform of `AddOwners`: merge the new owners' canonical
strings into the stored list, `SortedUnique` the union, and write it back
wholesale. -/
def AddOwnersTransform (owners : List Owner) (cfg : Config) : Config :=
  setOwnersList (SortedUnique (ownersList cfg ++ owners.map Owner.string)) cfg

/-- Embeds `AddOwners` (biome.go): validate every owner first; on any validation
error return the aggregate and leave the configuration untouched, otherwise
run the config transform. The pair is (call result, configuration after the
call). -/
def AddOwners (validate : Owner → Option String) (owners : List Owner)
    (cfg : Config) : Except (List (Owner × String)) Unit × Config :=
  let errs := validateOwners validate owners
  if errs.isEmpty then (.ok (), AddOwnersTransform owners cfg)
  else (.error errs, cfg)

/-! ### The ref-transaction writer (biome.go `refUpdater`)

`newRefUpdater` starts `git update-ref --stdin` with stdout and stderr
captured in one buffer, and writes the line `start`. `Write` forwards bytes to
the subprocess's stdin. `Close` writes `prepare` and `commit` (one `Fprintln`
of `"prepare\ncommit"`, hence the two lines plus a trailing newline), closes
stdin, and waits; a non-zero exit or early termination surfaces as an error
carrying the captured combined output. Pipe writes are modelled as infallible:
they are buffered by the OS and the spec treats them as such. The subprocess
outcome is the environment parameter. -/

structure RefUpdaterEnv where
  exitCode : Nat
  output : String

/-- The updater's observable I/O state: the chunks written to the
subprocess's stdin, in order, and whether stdin has been closed. -/
structure refUpdater where
  written : List String
  closed : Bool
deriving DecidableEq, Repr

/-- Embeds `newRefUpdater`: the session after the `start` line. -/
def newRefUpdater : refUpdater := { written := ["start\n"], closed := false }

/-- Embeds `refUpdater.Write`. -/
def refUpdater.Write (r : refUpdater) (p : String) : refUpdater :=
  { r with written := r.written ++ [p] }

structure RefUpdaterError where
  exitCode : Nat
  output : String
deriving DecidableEq, Repr

/-- Embeds `refUpdater.Close`: append `"prepare\ncommit\n"`, close stdin, wait; `ok`
exactly when the subprocess exits zero, otherwise an error carrying the
captured combined output. -/
def refUpdater.Close (r : refUpdater) (env : RefUpdaterEnv) :
    refUpdater × Except RefUpdaterError Unit :=
  ({ written := r.written ++ ["prepare\ncommit\n"], closed := true },
    if env.exitCode = 0 then .ok ()
    else .error ⟨env.exitCode, env.output⟩)

/-- Concatenation of the written chunks: the byte stream the subprocess
reads. -/
def joinStr : List String → String
  | [] => ""
  | s :: ss => s ++ joinStr ss

/-! ### The config editor (internal/config/editor.go `Edit`)

`Edit` starts a rendezvous server, launches `git config edit --local` with the
helper as its editor, and then either (a) sees the subprocess end before the
helper calls back, (b) is cancelled, or (c) receives the temp-file path; in
case (c) it loads the file, runs the caller's transform, conditionally saves,
and signals the helper success or failure (`editorServer.Done`), the helper's
exit status deciding whether the external workflow commits or discards the
temp file. The external outcomes (rendezvous, load, save) are environment
parameters; the in-memory transform is the function argument. -/

inductive EditError (ε : Type) where
  | earlyExit (out : String)
  | cancelled
  | loadFailed (msg : String)
  | transformFailed (e : ε)
  | saveFailed (msg : String)
deriving DecidableEq, Repr

/-- Observable outcome of one `Edit` call: its return value, the content
successfully serialized back to the temp file (if any), and the completion
signal sent to the helper (`none` when the helper never connected). -/
structure EditTrace (ε : Type) where
  result : Except (EditError ε) Unit
  savedTemp : Option Config
  helperSignal : Option Bool

/-- The three ways the rendezvous select can resolve, with the load outcome
of the reported temp file folded in. -/
inductive Rendezvous where
  | earlyExit (out : String)
  | cancelled
  | path (loadResult : Except String Config)

/-- Embeds `Edit` (editor.go): the branch structure of the Go function, with the
transform as `Config → Except ε (Bool × Config)` (its `(bool, error)` return,
plus the mutations it makes to the in-memory config). -/
def editorEdit (ev : Rendezvous)
    (transform : Config → Except ε (Bool × Config))
    (save : Config → Option String) : EditTrace ε :=
  match ev with
  | .earlyExit out => ⟨.error (.earlyExit out), none, none⟩
  | .cancelled => ⟨.error .cancelled, none, none⟩
  | .path (.error msg) => ⟨.error (.loadFailed msg), none, some false⟩
  | .path (.ok cfg) =>
    match transform cfg with
    | .error e => ⟨.error (.transformFailed e), none, some false⟩
    | .ok (shouldSave, cfg2) =>
      if shouldSave then
        match save cfg2 with
        | some msg => ⟨.error (.saveFailed msg), none, some false⟩
        | none => ⟨.ok (), some cfg2, some true⟩
      else ⟨.ok (), none, some true⟩

/-- The external `git config edit` workflow's commit rule: when the helper
exits zero the (possibly rewritten) temp file replaces the persisted
configuration; on any other outcome the persisted file is untouched. -/
def commitEdit (persisted : Config) (tr : EditTrace ε) : Config :=
  if tr.helperSignal = some true then tr.savedTemp.getD persisted
  else persisted

/-! ### UpdateRemotes (biome.go)

The directory service (GraphQL repository listing, already converted to
`remote` values by `repository.Remote`) is the parameter `svc`; `buildRemotes`
sorts its answer by remote name as the Go code does. The config transform runs
inside one Config Editor session; the ref effects run in one or two
`git update-ref --stdin` sessions afterwards. -/

/-- Embeds `buildRemotes` (biome.go): the service's repository list for one owner,
sorted by remote name (`slices.SortFunc` with `strings.Compare`). -/
def buildRemotes (svc : Owner → List remote) (o : Owner) : List remote :=
  List.insertionSort (fun a b => a.Name ≤ b.Name) (svc o)

/-- The in-flight state of the reconciliation loop: the configuration being
edited, the cleanup candidate set (`remotesToCleanUp`; Go uses a map of names,
we keep the name list), and `addedRemotes`. -/
structure URState where
  cfg : Config
  cleanup : List String
  added : List remote
deriving DecidableEq, Repr

/-- One iteration of the classification loop of `UpdateRemotes`, in source
order: disabled → `biome.remotes.disabled`; else locked →
`biome.remotes.locked`; else an invalid fetch refspec →
`biome.remotes.unsupported`; else record the category (`archived` or
`active`), drop the name from the cleanup set, append to `addedRemotes`, and
write the remote declaration (`url`, `fetch`, `tagOpt`). With `wg` the
spec-modelled group recording (`remotes.<group-tag>`) is included. -/
def applyRemote (wg : Bool) (valid : String → Bool) (o : Owner)
    (st : URState) (r : remote) : URState :=
  if r.Disabled then { st with cfg := addCat "disabled" r.Name st.cfg }
  else if r.Locked then { st with cfg := addCat "locked" r.Name st.cfg }
  else
    match r.FetchRefspec valid with
    | .error _ => { st with cfg := addCat "unsupported" r.Name st.cfg }
    | .ok refspec =>
      let cfg := if r.Archived then addCat "archived" r.Name st.cfg
        else addCat "active" r.Name st.cfg
      let cfg := setDecl r.Name r.FetchURL refspec cfg
      let cfg := if wg then addGroup o.RemoteGroup r.Name cfg else cfg
      { cfg := cfg,
        cleanup := st.cleanup.filter (fun n => n ≠ r.Name),
        added := st.added ++ [r] }

/-- The nested loop of `UpdateRemotes`: for each owner, classify each of its
remotes. -/
def updateLoop (wg : Bool) (valid : String → Bool) (svc : Owner → List remote)
    (owners : List Owner) (st : URState) : URState :=
  owners.foldl (fun st2 o => (buildRemotes svc o).foldl (applyRemote wg valid o) st2) st

/-- The Config Editor transform of `UpdateRemotes`: abort on owner parse
errors; snapshot the currently declared remote names as cleanup candidates;
clear all remote declarations and all five category lists; run the
classification loop. `wg = false` is the function as it appears in biome.go;
`wg = true` adds the spec-modelled group recording. -/
def UpdateRemotesConfig (wg : Bool) (valid : String → Bool)
    (svc : Owner → List remote) (cfg : Config) :
    Except (List String) URState :=
  let r := getOwnersRaw cfg
  if r.2.isEmpty then
    .ok (updateLoop wg valid svc r.1
      { cfg := clearCats (clearDecls cfg),
        cleanup := declNames cfg,
        added := [] })
  else .error r.2

/-! ### The reference store and the two ref-transaction sessions -/

inductive RefTarget where
  | direct (oid : String)
  | symbolic (target : String)
deriving DecidableEq, Repr

structure RefEntry where
  name : String
  target : RefTarget
deriving DecidableEq, Repr

abbrev RefStore := List RefEntry

/-- The per-ref command pairs fed to `git update-ref --stdin` (the
`option no-deref` modifier is folded into the symref commands, which is the
only place biome.go emits it). -/
inductive RefCmd where
  | symrefUpdate (name target : String)
  | symrefDelete (name : String)
  | delete (name : String)
deriving DecidableEq, Repr

/-- Embeds `setHeads` (biome.go): for every added remote, update
`refs/remotes/<name>/HEAD` to the remote's head, or delete it when the remote
has no default branch. -/
def setHeadsCmds (rs : List remote) : List RefCmd :=
  rs.map (fun r =>
    if r.Head = "" then .symrefDelete ("refs/remotes/" ++ r.Name ++ "/HEAD")
    else .symrefUpdate ("refs/remotes/" ++ r.Name ++ "/HEAD") r.Head)

/-- Embeds `git for-each-ref` pattern matching for the non-glob patterns biome.go
passes: a literal pattern matches a ref completely or as a directory prefix
(up to a slash). -/
def refMatchesPat (pat n : String) : Bool :=
  n == pat || strStarts (pat ++ "/") n

/-- Embeds `git for-each-ref` with literal patterns: when one or more patterns are
given, the refs matching at least one of them; with NO patterns, every ref in
the repository. (The command sorts its output by refname; the order is
irrelevant to the net effect of the deletions, so store order is kept.) -/
def forEachRef (pats : List String) (store : RefStore) : List RefEntry :=
  if pats.isEmpty then store
  else store.filter (fun e => pats.any (fun p => refMatchesPat p e.name))

/-- Embeds `cleanUpRemotes` (biome.go): query the live refs under
`refs/remotes/<name>` for every cleanup candidate and emit a `symref-delete`
for each symbolic ref and a `delete` for each direct ref (the
`--format=%(if)%(symref)%(then)…%(else)…%(end)` template). -/
def cleanUpCmds (cleanup : List String) (store : RefStore) : List RefCmd :=
  (forEachRef (cleanup.map (fun n => "refs/remotes/" ++ n)) store).map
    (fun e => match e.target with
      | .symbolic _ => .symrefDelete e.name
      | .direct _ => .delete e.name)

/-- Write or replace one ref. -/
def setRef (store : RefStore) (n : String) (t : RefTarget) : RefStore :=
  if store.any (fun e => e.name == n) then
    store.map (fun e => if e.name == n then ⟨n, t⟩ else e)
  else store ++ [⟨n, t⟩]

/-- The effect of one committed per-ref command on the reference store. -/
def applyCmd (store : RefStore) : RefCmd → RefStore
  | .symrefUpdate n t => setRef store n (.symbolic t)
  | .symrefDelete n => store.filter (fun e => e.name ≠ n)
  | .delete n => store.filter (fun e => e.name ≠ n)

/-- Embeds `UpdateRemotes` (biome.go), end to end: one Config Editor session (the
faithful `wg = false` transform), then the `setHeads` ref transaction, then
the `cleanUpRemotes` ref transaction; both transactions are taken as
committing successfully. Returns the new configuration and reference store. -/
def UpdateRemotes (valid : String → Bool) (svc : Owner → List remote)
    (cfg : Config) (store : RefStore) :
    Except (List String) (Config × RefStore) :=
  match UpdateRemotesConfig false valid svc cfg with
  | .error es => .error es
  | .ok st =>
    let store1 := (setHeadsCmds st.added).foldl applyCmd store
    let store2 := (cleanUpCmds st.cleanup store1).foldl applyCmd store1
    .ok (st.cfg, store2)

/-! ### Unwinding the reconciliation loop -/

/-- The classification loop as a single fold over (owner, remote) pairs. -/
def stepPair (wg : Bool) (valid : String → Bool) (st : URState)
    (p : Owner × remote) : URState :=
  applyRemote wg valid p.1 st p.2

/-- Every (owner, remote) pair the loop processes, in processing order. -/
def discoveredPairs (svc : Owner → List remote) (owners : List Owner) :
    List (Owner × remote) :=
  owners.flatMap (fun o => (buildRemotes svc o).map (fun r => (o, r)))

/-! ### Claim theorems -/

/-- A `git check-ref-format` oracle that accepts every pattern (all the remote
names below are ordinary `host/owner/repo` names). -/
def validAll : String → Bool := fun _ => true

def acmeOwner : Owner := ⟨"github.com", "acme"⟩

/-- One active repository of `github.com/acme`, default branch `main`. -/
def acmeBar : remote :=
  { Name := "github.com/acme/bar", FetchURL := "https://github.com/acme/bar.git",
    Archived := false, Disabled := false, Locked := false,
    Head := "refs/remotes/github.com/acme/bar/heads/main" }

/-- The directory service: `github.com/acme` owns exactly `bar`; this answer
never changes between passes. -/
def acmeSvc : Owner → List remote := fun o => if o = acmeOwner then [acmeBar] else []

/-- A freshly initialized biome configuration with `github.com/acme` stored. -/
def acmeCfg0 : Config :=
  ⟨[⟨"biome", [⟨"version", "1"⟩, ⟨"owners", "github.com/acme"⟩], []⟩]⟩

/-- The reconciled configuration `UpdateRemotes` produces from `acmeCfg0`:
the category membership and the remote declaration for `bar`. -/
def acmeCfg1 : Config :=
  ⟨[⟨"biome", [⟨"version", "1"⟩, ⟨"owners", "github.com/acme"⟩],
      [⟨"remotes", [⟨"active", "github.com/acme/bar"⟩]⟩]⟩,
    ⟨"remote", [],
      [⟨"github.com/acme/bar",
        [⟨"url", "https://github.com/acme/bar.git"⟩,
          ⟨"fetch", "+refs/*:refs/remotes/github.com/acme/bar/*"⟩,
          ⟨"tagOpt", "--no-tags"⟩]⟩]⟩]⟩

/-- The reference store after the previous pass and a fetch: `bar`'s HEAD
symref and its fetched branch. -/
def acmeRefs : RefStore :=
  [⟨"refs/remotes/github.com/acme/bar/HEAD",
      .symbolic "refs/remotes/github.com/acme/bar/heads/main"⟩,
    ⟨"refs/remotes/github.com/acme/bar/heads/main", .direct "1234abcd"⟩]

/-- The number of path separators in a reference. -/
def countSlash (s : String) : Nat := s.toList.count '/'

theorem modifyFirst_eq_none (p : α → Bool) (f : α → α) (l : List α) :
    modifyFirst p f l = none ↔ l.find? p = none := by
  induction l with
  | nil => simp [modifyFirst]
  | cons x xs ih =>
    cases hpx : p x <;> simp [modifyFirst, List.find?, hpx, ih]

theorem find?_updFirst_self (p : α → Bool) (f : α → α) (mk : α) (l : List α)
    (hp : ∀ a, p (f a) = p a) (hmk : p mk = true) :
    (updFirst p f mk l).find? p = some (f (((l.find? p).getD mk))) := by
  induction l with
  | nil => simp [updFirst, modifyFirst, List.find?, hp, hmk]
  | cons x xs ih =>
    cases hpx : p x
    · cases h : modifyFirst p f xs with
      | none =>
        have hfind : xs.find? p = none := (modifyFirst_eq_none p f xs).mp h
        simp [updFirst, modifyFirst, hpx, h, List.find?, hp, hmk, hfind]
      | some ys =>
        have ihys : ys.find? p = some (f ((xs.find? p).getD mk)) := by
          simpa [updFirst, h] using ih
        simp [updFirst, modifyFirst, hpx, h, List.find?, ihys]
    · simp [updFirst, modifyFirst, hpx, List.find?, hp]

theorem find?_updFirst_other (p q : α → Bool) (f : α → α) (mk : α) (l : List α)
    (hdisj : ∀ a, p a = true → q a = false) (hq : ∀ a, q (f a) = q a)
    (hmk : p mk = true) :
    (updFirst p f mk l).find? q = l.find? q := by
  induction l with
  | nil => simp [updFirst, modifyFirst, List.find?, hq, hdisj _ hmk]
  | cons x xs ih =>
    cases hpx : p x
    · cases h : modifyFirst p f xs with
      | none =>
        have ihnone : (updFirst p f mk xs).find? q = xs.find? q := ih
        simp only [updFirst, h] at ihnone
        cases hqx : q x <;>
          simp [updFirst, modifyFirst, hpx, h, List.find?, hqx, hq, hdisj _ hmk, ihnone]
      | some ys =>
        have ihys : ys.find? q = xs.find? q := by
          simpa [updFirst, h] using ih
        cases hqx : q x <;> simp [updFirst, modifyFirst, hpx, h, List.find?, hqx, ihys]
    · simp [updFirst, modifyFirst, hpx, List.find?, hq, hdisj _ hpx]

theorem splitSlashCh_ne_nil (l : List Char) : splitSlashCh l ≠ [] := by
  induction l with
  | nil => simp [splitSlashCh]
  | cons c cs ih =>
    cases h : splitSlashCh cs with
    | nil => exact absurd h ih
    | cons p ps => cases hc : decide (c = '/') <;> simp [splitSlashCh, h, hc]

theorem length_splitSlashCh (l : List Char) :
    (splitSlashCh l).length = l.count '/' + 1 := by
  induction l with
  | nil => simp [splitSlashCh]
  | cons c cs ih =>
    cases h : splitSlashCh cs with
    | nil => exact absurd h (splitSlashCh_ne_nil cs)
    | cons p ps =>
      by_cases hc : c = '/'
      · simp [splitSlashCh, h, hc, List.count_cons] at *
        omega
      · simp [splitSlashCh, h, hc, List.count_cons] at *
        omega

theorem eqFold_refl (a : String) : eqFold a a = true := by simp [eqFold]

theorem eqFold_trans {a b c : String} (h1 : eqFold a b = true)
    (h2 : eqFold a c = true) : eqFold b c = true := by
  simp only [eqFold, beq_iff_eq] at *
  rw [← h1, ← h2]

theorem sectionGet_withSection_self (c : Config) (n : String)
    (f : GitSection → GitSection) (hf : ∀ s, (f s).Name = s.Name) :
    (c.withSection n f).sectionGet n = f (c.sectionGet n) := by
  simp only [Config.sectionGet, Config.withSection, List.reverse_reverse]
  rw [find?_updFirst_self]
  · simp
  · intro a; simp [secMatch, hf]
  · simp [secMatch, eqFold_refl]

theorem sectionGet_withSection_other (c : Config) (n m : String)
    (f : GitSection → GitSection) (hf : ∀ s, (f s).Name = s.Name)
    (hnm : eqFold n m = false) :
    (c.withSection n f).sectionGet m = c.sectionGet m := by
  simp only [Config.sectionGet, Config.withSection, List.reverse_reverse]
  rw [find?_updFirst_other]
  · intro a ha
    cases haq : secMatch m a with
    | false => rfl
    | true =>
      have : eqFold n m = true :=
        eqFold_trans (by simpa [secMatch] using ha) (by simpa [secMatch] using haq)
      rw [this] at hnm; cases hnm
  · intro a; simp [secMatch, hf]
  · simp [secMatch, eqFold_refl]

theorem subsectionGet_withSubsection_self (s : GitSection) (n : String)
    (f : GitSubsection → GitSubsection) (hf : ∀ ss, (f ss).Name = ss.Name) :
    (s.withSubsection n f).subsectionGet n = f (s.subsectionGet n) := by
  simp only [GitSection.subsectionGet, GitSection.withSubsection,
    List.reverse_reverse]
  rw [find?_updFirst_self]
  · simp
  · intro a; simp [subMatch, hf]
  · simp [subMatch]

theorem subsectionGet_withSubsection_other (s : GitSection) (n m : String)
    (f : GitSubsection → GitSubsection) (hf : ∀ ss, (f ss).Name = ss.Name)
    (hnm : n ≠ m) :
    (s.withSubsection n f).subsectionGet m = s.subsectionGet m := by
  simp only [GitSection.subsectionGet, GitSection.withSubsection,
    List.reverse_reverse]
  rw [find?_updFirst_other]
  · intro a ha
    have han : a.Name = n := by simpa [subMatch] using ha
    simp [subMatch, han, hnm]
  · intro a; simp [subMatch, hf]
  · simp [subMatch]

theorem map_updFirst (g : α → β) (p : α → Bool) (f : α → α) (mk : α)
    (l : List α) (hgf : ∀ a, g (f a) = g a) :
    (updFirst p f mk l).map g =
      if l.any p then l.map g else g (f mk) :: l.map g := by
  induction l with
  | nil => simp [updFirst, modifyFirst]
  | cons x xs ih =>
    cases hpx : p x
    · cases h : modifyFirst p f xs with
      | none =>
        have hany : xs.any p = false := by
          have := (modifyFirst_eq_none p f xs).mp h
          simpa [List.find?_eq_none, List.any_eq_false] using this
        simp [updFirst, modifyFirst, hpx, h, hany]
      | some ys =>
        have ihys : ys.map g = if xs.any p then xs.map g else g (f mk) :: xs.map g := by
          simpa [updFirst, h] using ih
        have hany : xs.any p = true := by
          cases hA : xs.any p with
          | true => rfl
          | false =>
            have : xs.find? p = none := by
              simp [List.find?_eq_none, List.any_eq_false] at hA ⊢
              exact hA
            rw [(modifyFirst_eq_none p f xs).mpr this] at h
            cases h
        simp only [hany, if_true] at ihys
        simp [updFirst, modifyFirst, hpx, h, hany, ihys]
    · simp [updFirst, modifyFirst, hpx, hgf]

/-- Option-list reads after the option-list writers. -/
theorem optGetAll_optAdd (k k2 v : String) (os : List GitOption) :
    optGetAll k2 (optAdd k v os) =
      optGetAll k2 os ++ if eqFold k k2 then [v] else [] := by
  cases h : eqFold k k2 <;> simp [optGetAll, optAdd, List.filter_append, h]

theorem optGetAll_optRemove_self (k : String) (os : List GitOption) :
    optGetAll k (optRemove k os) = [] := by
  induction os with
  | nil => simp [optGetAll, optRemove]
  | cons o os ih =>
    cases h : eqFold o.Key k <;> simp [optGetAll, optRemove, h, ih]

theorem optGetAll_optRemove_other (k k2 : String) (os : List GitOption)
    (hkk : eqFold k k2 = false) :
    optGetAll k2 (optRemove k os) = optGetAll k2 os := by
  induction os with
  | nil => simp [optGetAll, optRemove]
  | cons o os ih =>
    by_cases h2 : eqFold o.Key k2 = true
    · have h1 : eqFold o.Key k = false := by
        cases h1 : eqFold o.Key k with
        | false => rfl
        | true => rw [eqFold_trans h1 h2] at hkk; cases hkk
      simp [optGetAll, optRemove, h1, h2] at *
      exact ih
    · have h2f : eqFold o.Key k2 = false := by
        cases h : eqFold o.Key k2 with
        | false => rfl
        | true => exact absurd h h2
      cases h1 : eqFold o.Key k <;>
        simp [optGetAll, optRemove, h1, h2f] at * <;> exact ih

/-! ### Commutation of the projections with the updaters -/

theorem biomeRemotesOpts_addCat (k v : String) (c : Config) :
    biomeRemotesOpts (addCat k v c) = optAdd k v (biomeRemotesOpts c) := by
  simp only [biomeRemotesOpts, addCat]
  rw [sectionGet_withSection_self _ _ _ (by intro s; rfl),
    subsectionGet_withSubsection_self _ _ _ (by intro ss; rfl)]

theorem biomeRemotesOpts_clearCats (c : Config) :
    biomeRemotesOpts (clearCats c) =
      optRemove "unsupported" (optRemove "locked" (optRemove "disabled"
        (optRemove "archived" (optRemove "active" (biomeRemotesOpts c))))) := by
  simp only [biomeRemotesOpts, clearCats]
  rw [sectionGet_withSection_self _ _ _ (by intro s; rfl),
    subsectionGet_withSubsection_self _ _ _ (by intro ss; rfl)]

theorem sectionGet_biome_clearDecls (c : Config) :
    (clearDecls c).sectionGet "biome" = c.sectionGet "biome" := by
  simp only [clearDecls]
  rw [sectionGet_withSection_other _ _ _ _ (by intro s; rfl) (by decide)]

theorem sectionGet_biome_setDecl (n u fs : String) (c : Config) :
    (setDecl n u fs c).sectionGet "biome" = c.sectionGet "biome" := by
  simp only [setDecl]
  rw [sectionGet_withSection_other _ _ _ _ (by intro s; rfl) (by decide)]

theorem sectionGet_biome_addGroup (g n : String) (c : Config) :
    (addGroup g n c).sectionGet "biome" = c.sectionGet "biome" := by
  simp only [addGroup]
  rw [sectionGet_withSection_other _ _ _ _ (by intro s; rfl) (by decide)]

theorem sectionGet_remote_addCat (k v : String) (c : Config) :
    (addCat k v c).sectionGet "remote" = c.sectionGet "remote" := by
  simp only [addCat]
  rw [sectionGet_withSection_other _ _ _ _ (by intro s; rfl) (by decide)]

theorem sectionGet_remote_clearCats (c : Config) :
    (clearCats c).sectionGet "remote" = c.sectionGet "remote" := by
  simp only [clearCats]
  rw [sectionGet_withSection_other _ _ _ _ (by intro s; rfl) (by decide)]

theorem sectionGet_remote_addGroup (g n : String) (c : Config) :
    (addGroup g n c).sectionGet "remote" = c.sectionGet "remote" := by
  simp only [addGroup]
  rw [sectionGet_withSection_other _ _ _ _ (by intro s; rfl) (by decide)]

theorem sectionGet_remotes_addCat (k v : String) (c : Config) :
    (addCat k v c).sectionGet "remotes" = c.sectionGet "remotes" := by
  simp only [addCat]
  rw [sectionGet_withSection_other _ _ _ _ (by intro s; rfl) (by decide)]

theorem sectionGet_remotes_clearCats (c : Config) :
    (clearCats c).sectionGet "remotes" = c.sectionGet "remotes" := by
  simp only [clearCats]
  rw [sectionGet_withSection_other _ _ _ _ (by intro s; rfl) (by decide)]

theorem sectionGet_remotes_clearDecls (c : Config) :
    (clearDecls c).sectionGet "remotes" = c.sectionGet "remotes" := by
  simp only [clearDecls]
  rw [sectionGet_withSection_other _ _ _ _ (by intro s; rfl) (by decide)]

theorem sectionGet_remotes_setDecl (n u fs : String) (c : Config) :
    (setDecl n u fs c).sectionGet "remotes" = c.sectionGet "remotes" := by
  simp only [setDecl]
  rw [sectionGet_withSection_other _ _ _ _ (by intro s; rfl) (by decide)]

theorem sectionGet_remotes_addGroup (g n : String) (c : Config) :
    (addGroup g n c).sectionGet "remotes" =
      { c.sectionGet "remotes" with
          Options := optAdd g n (c.sectionGet "remotes").Options } := by
  simp only [addGroup]
  rw [sectionGet_withSection_self _ _ _ (by intro s; rfl)]

theorem biomeRemotesOpts_clearDecls (c : Config) :
    biomeRemotesOpts (clearDecls c) = biomeRemotesOpts c := by
  simp [biomeRemotesOpts, sectionGet_biome_clearDecls]

theorem biomeRemotesOpts_setDecl (n u fs : String) (c : Config) :
    biomeRemotesOpts (setDecl n u fs c) = biomeRemotesOpts c := by
  simp [biomeRemotesOpts, sectionGet_biome_setDecl]

theorem biomeRemotesOpts_addGroup (g n : String) (c : Config) :
    biomeRemotesOpts (addGroup g n c) = biomeRemotesOpts c := by
  simp [biomeRemotesOpts, sectionGet_biome_addGroup]

theorem remoteSubs_clearDecls (c : Config) : remoteSubs (clearDecls c) = [] := by
  simp only [remoteSubs, clearDecls]
  rw [sectionGet_withSection_self _ _ _ (by intro s; rfl)]

theorem remoteSubs_addCat (k v : String) (c : Config) :
    remoteSubs (addCat k v c) = remoteSubs c := by
  simp [remoteSubs, sectionGet_remote_addCat]

theorem remoteSubs_addGroup (g n : String) (c : Config) :
    remoteSubs (addGroup g n c) = remoteSubs c := by
  simp [remoteSubs, sectionGet_remote_addGroup]

theorem remoteSubs_setDecl (n u fs : String) (c : Config) :
    remoteSubs (setDecl n u fs c) =
      (updFirst (subMatch n)
        (fun ss =>
          { ss with
              Options := optSet "tagOpt" "--no-tags" (optSet "fetch" fs
                (optSet "url" u ss.Options)) })
        ⟨n, []⟩ (remoteSubs c).reverse).reverse := by
  simp only [remoteSubs, setDecl]
  rw [sectionGet_withSection_self _ _ _ (by intro s; rfl)]
  rfl

theorem declNames_setDecl (n u fs : String) (c : Config) :
    declNames (setDecl n u fs c) =
      if (remoteSubs c).any (subMatch n) then declNames c
      else declNames c ++ [n] := by
  simp only [declNames, remoteSubs_setDecl]
  rw [List.map_reverse,
    map_updFirst (fun ss : GitSubsection => ss.Name) _ _ _ _ (by intro a; rfl)]
  rw [List.any_reverse]
  cases h : (remoteSubs c).any (subMatch n) with
  | true => simp [declNames, List.map_reverse]
  | false => simp [declNames, List.map_reverse]

theorem remoteDecl_setDecl_self (n u fs : String) (c : Config) :
    remoteDecl (setDecl n u fs c) n =
      { remoteDecl c n with
          Options := optSet "tagOpt" "--no-tags" (optSet "fetch" fs
            (optSet "url" u (remoteDecl c n).Options)) } := by
  simp only [remoteDecl, setDecl]
  rw [sectionGet_withSection_self _ _ _ (by intro s; rfl),
    subsectionGet_withSubsection_self _ _ _ (by intro ss; rfl)]

theorem remoteDecl_setDecl_other (n m u fs : String) (c : Config)
    (hnm : n ≠ m) :
    remoteDecl (setDecl n u fs c) m = remoteDecl c m := by
  simp only [remoteDecl, setDecl]
  rw [sectionGet_withSection_self _ _ _ (by intro s; rfl),
    subsectionGet_withSubsection_other _ _ _ _ (by intro ss; rfl) hnm]

theorem remoteDecl_addCat (k v n : String) (c : Config) :
    remoteDecl (addCat k v c) n = remoteDecl c n := by
  simp [remoteDecl, sectionGet_remote_addCat]

theorem remoteDecl_addGroup (g m n : String) (c : Config) :
    remoteDecl (addGroup g m c) n = remoteDecl c n := by
  simp [remoteDecl, sectionGet_remote_addGroup]

theorem groupList_addGroup (g g2 n : String) (c : Config) :
    groupList (addGroup g n c) g2 =
      groupList c g2 ++ if eqFold g g2 then [n] else [] := by
  simp [groupList, sectionGet_remotes_addGroup, optGetAll_optAdd]

theorem groupList_addCat (k v g2 : String) (c : Config) :
    groupList (addCat k v c) g2 = groupList c g2 := by
  simp [groupList, sectionGet_remotes_addCat]

theorem groupList_setDecl (n u fs g2 : String) (c : Config) :
    groupList (setDecl n u fs c) g2 = groupList c g2 := by
  simp [groupList, sectionGet_remotes_setDecl]

theorem mem_SortedUnique {x : String} {l : List String} :
    x ∈ SortedUnique l ↔ x ∈ l := by
  unfold SortedUnique
  rw [List.mem_dedup]
  exact (List.perm_insertionSort (· ≤ ·) l).mem_iff

theorem nodup_SortedUnique (l : List String) : (SortedUnique l).Nodup :=
  List.nodup_dedup _

theorem sorted_SortedUnique (l : List String) :
    (SortedUnique l).Sorted (· ≤ ·) :=
  (List.sorted_insertionSort (· ≤ ·) l).sublist (List.dedup_sublist _)

/-- Sorted, duplicate-free string lists are determined by their members. -/
theorem sortedNodup_ext {l1 l2 : List String}
    (hs1 : l1.Sorted (· ≤ ·)) (hs2 : l2.Sorted (· ≤ ·))
    (hn1 : l1.Nodup) (hn2 : l2.Nodup)
    (hm : ∀ x, x ∈ l1 ↔ x ∈ l2) : l1 = l2 := by
  refine List.eq_of_perm_of_sorted ?_ hs1 hs2
  refine List.perm_of_nodup_nodup_toFinset_eq hn1 hn2 ?_
  ext x
  simp [List.mem_toFinset, hm x]

theorem SortedUnique_append_subset (l m : List String)
    (hsort : l.Sorted (· ≤ ·)) (hnd : l.Nodup) (hsub : ∀ x ∈ m, x ∈ l) :
    SortedUnique (l ++ m) = l := by
  refine sortedNodup_ext (sorted_SortedUnique _) hsort (nodup_SortedUnique _) hnd ?_
  intro x
  rw [mem_SortedUnique, List.mem_append]
  constructor
  · rintro (h | h)
    · exact h
    · exact hsub x h
  · exact Or.inl

theorem optGetAll_foldl_optAdd (k : String) (vs : List String)
    (os : List GitOption) :
    optGetAll k (vs.foldl (fun os2 v => optAdd k v os2) os) =
      optGetAll k os ++ vs := by
  induction vs generalizing os with
  | nil => simp
  | cons v vs ih => simp [ih, optGetAll_optAdd, eqFold_refl]

theorem ownersList_setOwnersList (vs : List String) (c : Config) :
    ownersList (setOwnersList vs c) = vs := by
  simp only [ownersList, setOwnersList]
  rw [sectionGet_withSection_self _ _ _ (by intro s; rfl)]
  simp [optGetAll_foldl_optAdd, optGetAll_optRemove_self]

theorem joinStr_append (a b : List String) :
    joinStr (a ++ b) = joinStr a ++ joinStr b := by
  induction a with
  | nil => simp [joinStr]
  | cons s ss ih =>
    apply String.ext
    simp [joinStr, ih]

theorem updateLoop_eq_foldl (wg : Bool) (valid : String → Bool)
    (svc : Owner → List remote) (owners : List Owner) (st : URState) :
    updateLoop wg valid svc owners st =
      (discoveredPairs svc owners).foldl (stepPair wg valid) st := by
  induction owners generalizing st with
  | nil => rfl
  | cons o os ih =>
    simp only [updateLoop, discoveredPairs, List.flatMap_cons, List.foldl_append,
      List.foldl_cons] at *
    rw [List.foldl_map]
    exact ih _

theorem catList_applyRemote (wg : Bool) (valid : String → Bool) (o : Owner)
    (st : URState) (r : remote) (k : String) :
    catList (applyRemote wg valid o st r).cfg k =
      catList st.cfg k ++
        if eqFold (catKey (rcat valid r)) k then [r.Name] else [] := by
  cases hd : r.Disabled
  · cases hl : r.Locked
    · cases hfr : r.FetchRefspec valid with
      | error e =>
        simp [applyRemote, rcat, hd, hl, hfr, catKey, catList,
          biomeRemotesOpts_addCat, optGetAll_optAdd]
      | ok fs =>
        cases ha : r.Archived <;> cases wg <;>
          simp [applyRemote, rcat, hd, hl, hfr, ha, catKey, catList,
            biomeRemotesOpts_addCat, biomeRemotesOpts_setDecl,
            biomeRemotesOpts_addGroup, optGetAll_optAdd]
    · simp [applyRemote, rcat, hd, hl, catKey, catList,
        biomeRemotesOpts_addCat, optGetAll_optAdd]
  · simp [applyRemote, rcat, hd, catKey, catList,
      biomeRemotesOpts_addCat, optGetAll_optAdd]

theorem remoteSubs_applyRemote (wg : Bool) (valid : String → Bool) (o : Owner)
    (st : URState) (r : remote) :
    remoteSubs (applyRemote wg valid o st r).cfg =
      if fetchable (rcat valid r) then
        (updFirst (subMatch r.Name)
          (fun ss =>
            { ss with
                Options := optSet "tagOpt" "--no-tags"
                  (optSet "fetch" ("+refs/*:refs/remotes/" ++ r.Name ++ "/*")
                    (optSet "url" r.FetchURL ss.Options)) })
          ⟨r.Name, []⟩ (remoteSubs st.cfg).reverse).reverse
      else remoteSubs st.cfg := by
  cases hd : r.Disabled
  · cases hl : r.Locked
    · cases hfr : r.FetchRefspec valid with
      | error e =>
        simp [applyRemote, rcat, hd, hl, hfr, fetchable, remoteSubs_addCat]
      | ok fs =>
        have hfs : fs = "+refs/*:refs/remotes/" ++ r.Name ++ "/*" := by
          unfold remote.FetchRefspec at hfr
          by_cases hv : valid ("refs/remotes/" ++ r.Name ++ "/*") = true
          · simp [hv] at hfr
            exact hfr.symm
          · simp [Bool.eq_false_iff.mpr hv] at hfr
        subst hfs
        cases ha : r.Archived <;> cases wg <;>
          simp [applyRemote, rcat, hd, hl, hfr, ha, fetchable,
            remoteSubs_addCat, remoteSubs_addGroup, remoteSubs_setDecl]
    · simp [applyRemote, rcat, hd, hl, fetchable, remoteSubs_addCat]
  · simp [applyRemote, rcat, hd, fetchable, remoteSubs_addCat]

theorem declNames_applyRemote (wg : Bool) (valid : String → Bool) (o : Owner)
    (st : URState) (r : remote) :
    declNames (applyRemote wg valid o st r).cfg =
      if fetchable (rcat valid r) then
        (if (remoteSubs st.cfg).any (subMatch r.Name) then declNames st.cfg
          else declNames st.cfg ++ [r.Name])
      else declNames st.cfg := by
  cases hc : fetchable (rcat valid r)
  · simp only [declNames, remoteSubs_applyRemote, hc, Bool.false_eq_true, if_false]
  · simp only [declNames, remoteSubs_applyRemote, hc, if_true]
    rw [List.map_reverse,
      map_updFirst (fun ss : GitSubsection => ss.Name) _ _ _ _ (by intro a; rfl)]
    rw [List.any_reverse]
    cases h : (remoteSubs st.cfg).any (subMatch r.Name) with
    | true => simp [declNames, List.map_reverse]
    | false => simp [declNames, List.map_reverse]

theorem cleanup_applyRemote (wg : Bool) (valid : String → Bool) (o : Owner)
    (st : URState) (r : remote) :
    (applyRemote wg valid o st r).cleanup =
      if fetchable (rcat valid r) then st.cleanup.filter (fun n => n ≠ r.Name)
      else st.cleanup := by
  cases hd : r.Disabled
  · cases hl : r.Locked
    · cases hfr : r.FetchRefspec valid with
      | error e => simp [applyRemote, rcat, hd, hl, hfr, fetchable]
      | ok fs =>
        cases ha : r.Archived <;> cases wg <;>
          simp [applyRemote, rcat, hd, hl, hfr, ha, fetchable]
    · simp [applyRemote, rcat, hd, hl, fetchable]
  · simp [applyRemote, rcat, hd, fetchable]

theorem added_applyRemote (wg : Bool) (valid : String → Bool) (o : Owner)
    (st : URState) (r : remote) :
    (applyRemote wg valid o st r).added =
      if fetchable (rcat valid r) then st.added ++ [r] else st.added := by
  cases hd : r.Disabled
  · cases hl : r.Locked
    · cases hfr : r.FetchRefspec valid with
      | error e => simp [applyRemote, rcat, hd, hl, hfr, fetchable]
      | ok fs =>
        cases ha : r.Archived <;> cases wg <;>
          simp [applyRemote, rcat, hd, hl, hfr, ha, fetchable]
    · simp [applyRemote, rcat, hd, hl, fetchable]
  · simp [applyRemote, rcat, hd, fetchable]

theorem remoteDecl_applyRemote_other (wg : Bool) (valid : String → Bool)
    (o : Owner) (st : URState) (r : remote) (m : String) (hm : r.Name ≠ m) :
    remoteDecl (applyRemote wg valid o st r).cfg m = remoteDecl st.cfg m := by
  cases hd : r.Disabled
  · cases hl : r.Locked
    · cases hfr : r.FetchRefspec valid with
      | error e => simp [applyRemote, hd, hl, hfr, remoteDecl_addCat]
      | ok fs =>
        cases ha : r.Archived <;> cases wg <;>
          simp [applyRemote, hd, hl, hfr, ha, remoteDecl_addCat,
            remoteDecl_addGroup, remoteDecl_setDecl_other _ _ _ _ _ hm]
    · simp [applyRemote, hd, hl, remoteDecl_addCat]
  · simp [applyRemote, hd, remoteDecl_addCat]

theorem remoteDecl_applyRemote_self (wg : Bool) (valid : String → Bool)
    (o : Owner) (st : URState) (r : remote)
    (hc : fetchable (rcat valid r) = true) :
    remoteDecl (applyRemote wg valid o st r).cfg r.Name =
      { remoteDecl st.cfg r.Name with
          Options := optSet "tagOpt" "--no-tags"
            (optSet "fetch" ("+refs/*:refs/remotes/" ++ r.Name ++ "/*")
              (optSet "url" r.FetchURL (remoteDecl st.cfg r.Name).Options)) } := by
  cases hd : r.Disabled
  · cases hl : r.Locked
    · cases hfr : r.FetchRefspec valid with
      | error e => simp [rcat, hd, hl, hfr, fetchable] at hc
      | ok fs =>
        have hfs : fs = "+refs/*:refs/remotes/" ++ r.Name ++ "/*" := by
          unfold remote.FetchRefspec at hfr
          by_cases hv : valid ("refs/remotes/" ++ r.Name ++ "/*") = true
          · simp [hv] at hfr
            exact hfr.symm
          · simp [Bool.eq_false_iff.mpr hv] at hfr
        subst hfs
        cases ha : r.Archived <;> cases wg <;>
          simp [applyRemote, hd, hl, hfr, ha, remoteDecl_addCat,
            remoteDecl_addGroup, remoteDecl_setDecl_self]
    · simp [rcat, hd, hl, fetchable] at hc
  · simp [rcat, hd, fetchable] at hc

theorem groupList_applyRemote (valid : String → Bool) (o : Owner)
    (st : URState) (r : remote) (g : String) :
    groupList (applyRemote true valid o st r).cfg g =
      groupList st.cfg g ++
        if fetchable (rcat valid r) && eqFold o.RemoteGroup g then [r.Name]
        else [] := by
  cases hd : r.Disabled
  · cases hl : r.Locked
    · cases hfr : r.FetchRefspec valid with
      | error e => simp [applyRemote, rcat, hd, hl, hfr, fetchable, groupList_addCat]
      | ok fs =>
        cases ha : r.Archived <;>
          simp [applyRemote, rcat, hd, hl, hfr, ha, fetchable, groupList_addCat,
            groupList_setDecl, groupList_addGroup]
    · simp [applyRemote, rcat, hd, hl, fetchable, groupList_addCat]
  · simp [applyRemote, rcat, hd, fetchable, groupList_addCat]

theorem eqFold_catKey (a b : RemoteCategory) :
    eqFold (catKey a) (catKey b) = true ↔ a = b := by
  cases a <;> cases b <;> decide

theorem catList_foldl (wg : Bool) (valid : String → Bool)
    (ps : List (Owner × remote)) (st : URState) (cat : RemoteCategory) :
    catList (ps.foldl (stepPair wg valid) st).cfg (catKey cat) =
      catList st.cfg (catKey cat) ++
        (ps.filter (fun p => rcat valid p.2 == cat)).map (fun p => p.2.Name) := by
  induction ps generalizing st with
  | nil => simp
  | cons p ps ih =>
    rw [List.foldl_cons, ih]
    have hstep : catList (stepPair wg valid st p).cfg (catKey cat) =
        catList st.cfg (catKey cat) ++
          if eqFold (catKey (rcat valid p.2)) (catKey cat) then [p.2.Name]
          else [] := catList_applyRemote wg valid p.1 st p.2 (catKey cat)
    rw [hstep]
    by_cases hc : rcat valid p.2 = cat
    · rw [if_pos ((eqFold_catKey _ _).mpr hc)]
      simp [List.filter_cons, hc, List.append_assoc]
    · rw [if_neg (by
        intro habs
        exact hc ((eqFold_catKey _ _).mp habs))]
      simp [List.filter_cons, hc]

theorem declNames_foldl (wg : Bool) (valid : String → Bool)
    (ps : List (Owner × remote)) (st : URState)
    (hnd : (declNames st.cfg ++ ps.map (fun p => p.2.Name)).Nodup) :
    declNames (ps.foldl (stepPair wg valid) st).cfg =
      declNames st.cfg ++
        (ps.filter (fun p => fetchable (rcat valid p.2))).map
          (fun p => p.2.Name) := by
  induction ps generalizing st with
  | nil => simp
  | cons p ps ih =>
    rw [List.foldl_cons]
    cases hc : fetchable (rcat valid p.2) with
    | false =>
      have hst : declNames (stepPair wg valid st p).cfg = declNames st.cfg := by
        simp [stepPair, declNames_applyRemote, hc]
      rw [ih _ (by
        rw [hst]
        refine hnd.sublist ?_
        exact (List.sublist_cons_self p.2.Name _).append_left _)]
      simp [hst, List.filter_cons, hc]
    | true =>
      have hmem : p.2.Name ∉ declNames st.cfg := by
        rcases List.nodup_append.mp hnd with ⟨-, -, hdisj⟩
        intro habs
        exact hdisj habs (by simp)
      have hany : (remoteSubs st.cfg).any (subMatch p.2.Name) = false := by
        rw [List.any_eq_false]
        intro ss hss habs
        have habs2 : ss.Name = p.2.Name := by simpa [subMatch] using habs
        exact hmem (by
          simp only [declNames, List.mem_map]
          exact ⟨ss, hss, habs2⟩)
      have hst : declNames (stepPair wg valid st p).cfg =
          declNames st.cfg ++ [p.2.Name] := by
        simp [stepPair, declNames_applyRemote, hc, hany]
      rw [ih _ (by
        rw [hst, List.append_assoc]
        simpa using hnd)]
      simp [hst, List.filter_cons, hc, List.append_assoc]

theorem added_foldl (wg : Bool) (valid : String → Bool)
    (ps : List (Owner × remote)) (st : URState) :
    (ps.foldl (stepPair wg valid) st).added =
      st.added ++
        (ps.filter (fun p => fetchable (rcat valid p.2))).map (fun p => p.2) := by
  induction ps generalizing st with
  | nil => simp
  | cons p ps ih =>
    rw [List.foldl_cons, ih]
    cases hc : fetchable (rcat valid p.2) <;>
      simp [stepPair, added_applyRemote, hc, List.filter_cons, List.append_assoc]

theorem cleanup_foldl_subset (wg : Bool) (valid : String → Bool)
    (ps : List (Owner × remote)) (st : URState) (n : String)
    (h : n ∈ (ps.foldl (stepPair wg valid) st).cleanup) : n ∈ st.cleanup := by
  induction ps generalizing st with
  | nil => exact h
  | cons p ps ih =>
    rw [List.foldl_cons] at h
    have h2 := ih _ h
    rw [stepPair, cleanup_applyRemote] at h2
    cases hc : fetchable (rcat valid p.2)
    · rwa [hc] at h2
    · rw [hc] at h2
      simp at h2
      exact h2.1

theorem cleanup_foldl_not_mem (wg : Bool) (valid : String → Bool)
    (ps : List (Owner × remote)) (st : URState) (p : Owner × remote)
    (hp : p ∈ ps) (hc : fetchable (rcat valid p.2) = true) :
    p.2.Name ∉ (ps.foldl (stepPair wg valid) st).cleanup := by
  induction ps generalizing st with
  | nil => cases hp
  | cons q ps ih =>
    rw [List.foldl_cons]
    rcases List.mem_cons.mp hp with rfl | hmem
    · intro habs
      have h2 := cleanup_foldl_subset wg valid ps _ _ habs
      rw [stepPair, cleanup_applyRemote, hc] at h2
      simp at h2
    · exact ih _ hmem

theorem remoteDecl_of_not_mem (c : Config) (n : String)
    (h : n ∉ declNames c) : remoteDecl c n = ⟨n, []⟩ := by
  simp only [remoteDecl, GitSection.subsectionGet]
  have hfind : (c.sectionGet "remote").Subsections.reverse.find? (subMatch n) =
      none := by
    rw [List.find?_eq_none]
    intro x hx habs
    have habs2 : x.Name = n := by simpa [subMatch] using habs
    refine h ?_
    simp only [declNames, remoteSubs, List.mem_map]
    exact ⟨x, List.mem_reverse.mp hx, habs2⟩
  simp [hfind]

theorem remoteDecl_foldl_other (wg : Bool) (valid : String → Bool)
    (ps : List (Owner × remote)) (st : URState) (m : String)
    (hm : ∀ p ∈ ps, p.2.Name ≠ m) :
    remoteDecl (ps.foldl (stepPair wg valid) st).cfg m = remoteDecl st.cfg m := by
  induction ps generalizing st with
  | nil => rfl
  | cons p ps ih =>
    rw [List.foldl_cons, ih _ (fun q hq => hm q (List.mem_cons_of_mem p hq))]
    exact remoteDecl_applyRemote_other wg valid p.1 st p.2 m (hm p (by simp))

theorem remoteDecl_foldl_configured (wg : Bool) (valid : String → Bool)
    (ps : List (Owner × remote)) (st : URState) (p : Owner × remote)
    (hp : p ∈ ps) (hc : fetchable (rcat valid p.2) = true)
    (hnd : (ps.map (fun q => q.2.Name)).Nodup)
    (hfresh : ∀ q ∈ ps, q.2.Name ∉ declNames st.cfg) :
    remoteDecl (ps.foldl (stepPair wg valid) st).cfg p.2.Name =
      ⟨p.2.Name,
        [⟨"url", p.2.FetchURL⟩,
          ⟨"fetch", "+refs/*:refs/remotes/" ++ p.2.Name ++ "/*"⟩,
          ⟨"tagOpt", "--no-tags"⟩]⟩ := by
  induction ps generalizing st with
  | nil => cases hp
  | cons q ps ih =>
    rw [List.foldl_cons]
    rcases List.mem_cons.mp hp with heq | hmem
    · subst heq
      have hq : p.2.Name ∉ List.map (fun x => x.2.Name) ps := by
        rw [List.map_cons] at hnd
        exact (List.nodup_cons.mp hnd).1
      have hne : ∀ q2 ∈ ps, q2.2.Name ≠ p.2.Name := by
        intro q2 hq2 habs
        exact hq (by
          rw [← habs]
          exact List.mem_map_of_mem (fun x => x.2.Name) hq2)
      rw [remoteDecl_foldl_other wg valid ps _ _ hne]
      rw [stepPair, remoteDecl_applyRemote_self wg valid p.1 st p.2 hc]
      rw [remoteDecl_of_not_mem st.cfg p.2.Name (hfresh p (by simp))]
      simp only []
      rw [show optSet "url" p.2.FetchURL [] = [⟨"url", p.2.FetchURL⟩] from rfl]
      rw [show optSet "fetch" ("+refs/*:refs/remotes/" ++ p.2.Name ++ "/*")
          [⟨"url", p.2.FetchURL⟩] =
          [⟨"url", p.2.FetchURL⟩,
            ⟨"fetch", "+refs/*:refs/remotes/" ++ p.2.Name ++ "/*"⟩] from by
        simp [optSet, (by decide : eqFold "url" "fetch" = false)]]
      rw [show optSet "tagOpt" "--no-tags"
          [⟨"url", p.2.FetchURL⟩,
            ⟨"fetch", "+refs/*:refs/remotes/" ++ p.2.Name ++ "/*"⟩] =
          [⟨"url", p.2.FetchURL⟩,
            ⟨"fetch", "+refs/*:refs/remotes/" ++ p.2.Name ++ "/*"⟩,
            ⟨"tagOpt", "--no-tags"⟩] from by
        simp [optSet, (by decide : eqFold "url" "tagOpt" = false),
          (by decide : eqFold "fetch" "tagOpt" = false)]]
    · refine ih _ hmem (List.Nodup.of_cons hnd) ?_
      intro q2 hq2
      have hq2name : q2.2.Name ≠ q.2.Name := by
        have hnm : q.2.Name ∉ List.map (fun x => x.2.Name) ps := by
          rw [List.map_cons] at hnd
          exact (List.nodup_cons.mp hnd).1
        intro habs
        exact hnm (by
          rw [← habs]
          exact List.mem_map_of_mem (fun x => x.2.Name) hq2)
      have hbase := hfresh q2 (List.mem_cons_of_mem q hq2)
      rw [stepPair]
      intro habs
      rw [declNames_applyRemote] at habs
      cases hcq : fetchable (rcat valid q.2) <;> rw [hcq] at habs
      · simp at habs
        exact hbase habs
      · cases hany : (remoteSubs st.cfg).any (subMatch q.2.Name) <;>
          rw [hany] at habs
        · simp at habs
          rcases habs with habs | habs
          · exact hbase habs
          · exact hq2name habs
        · simp at habs
          exact hbase habs

theorem groupList_foldl_mono (valid : String → Bool)
    (ps : List (Owner × remote)) (st : URState) (g x : String)
    (hx : x ∈ groupList st.cfg g) :
    x ∈ groupList (ps.foldl (stepPair true valid) st).cfg g := by
  induction ps generalizing st with
  | nil => exact hx
  | cons p ps ih =>
    rw [List.foldl_cons]
    refine ih _ ?_
    rw [stepPair, groupList_applyRemote]
    exact List.mem_append_left _ hx

theorem groupList_foldl_mem (valid : String → Bool)
    (ps : List (Owner × remote)) (st : URState) (p : Owner × remote)
    (hp : p ∈ ps) (hc : fetchable (rcat valid p.2) = true) :
    p.2.Name ∈ groupList (ps.foldl (stepPair true valid) st).cfg
      p.1.RemoteGroup := by
  induction ps generalizing st with
  | nil => cases hp
  | cons q ps ih =>
    rw [List.foldl_cons]
    rcases List.mem_cons.mp hp with rfl | hmem
    · refine groupList_foldl_mono valid ps _ _ _ ?_
      rw [stepPair, groupList_applyRemote, hc, eqFold_refl]
      simp
    · exact ih _ hmem

theorem catList_clear (cfg : Config) (cat : RemoteCategory) :
    catList (clearCats (clearDecls cfg)) (catKey cat) = [] := by
  cases cat <;>
    · simp only [catKey, catList, biomeRemotesOpts_clearCats]
      repeat first
        | rw [optGetAll_optRemove_self]
        | rw [optGetAll_optRemove_other _ _ _ (by decide)]

theorem remoteSubs_clear (cfg : Config) :
    remoteSubs (clearCats (clearDecls cfg)) = [] := by
  have h : remoteSubs (clearCats (clearDecls cfg)) =
      remoteSubs (clearDecls cfg) := by
    simp [remoteSubs, sectionGet_remote_clearCats]
  rw [h, remoteSubs_clearDecls]

theorem declNames_clear (cfg : Config) :
    declNames (clearCats (clearDecls cfg)) = [] := by
  simp [declNames, remoteSubs_clear]

/-- Claim C1: (code_bug evidence). `acmeCfg1` is exactly the configuration the
`UpdateRemotes` config phase produces from `acmeCfg0`, i.e. the state after a
previous pass. Re-running `UpdateRemotes` on that unchanged state returns no
error, rewrites the configuration identically, and leaves no candidate names
in the cleanup set — but instead of deleting no references, the cleanup step
runs `git for-each-ref` with no patterns (which matches every reference) and
deletes the entire reference store: the result store is `[]` although the
claim requires `acmeRefs` unchanged. -/
theorem updateRemotes_noop_rerun_deletes_all_refs :
    (UpdateRemotesConfig false validAll acmeSvc acmeCfg0).map URState.cfg =
      .ok acmeCfg1 ∧
    (UpdateRemotesConfig false validAll acmeSvc acmeCfg1).map URState.cleanup =
      .ok [] ∧
    UpdateRemotes validAll acmeSvc acmeCfg1 acmeRefs = .ok (acmeCfg1, []) ∧
    acmeRefs ≠ [] := by decide

/-- Claim C2: After any successful `UpdateRemotes` pass (stored owners all
parse, and — as the directory service guarantees, remote names being
`host/owner/repo` — the discovered names are pairwise distinct), every
discovered remote's name is recorded in exactly one of the five category
lists, the one selected by the first matching rule in source order (disabled →
locked → invalid refspec → archived → active, which is `rcat`), and it has a
git remote declaration if and only if its category is active or archived. -/
theorem updateRemotes_partition (valid : String → Bool)
    (svc : Owner → List remote) (cfg : Config) (owners : List Owner)
    (how : getOwnersRaw cfg = (owners, []))
    (hnd : ((discoveredPairs svc owners).map (fun p => p.2.Name)).Nodup) :
    ∃ st, UpdateRemotesConfig false valid svc cfg = .ok st ∧
      ∀ p ∈ discoveredPairs svc owners,
        (∀ cat, p.2.Name ∈ catList st.cfg (catKey cat) ↔ rcat valid p.2 = cat) ∧
        (p.2.Name ∈ declNames st.cfg ↔ fetchable (rcat valid p.2) = true) := by
  have hrun : UpdateRemotesConfig false valid svc cfg =
      .ok (updateLoop false valid svc owners
        { cfg := clearCats (clearDecls cfg), cleanup := declNames cfg,
          added := [] }) := by
    simp [UpdateRemotesConfig, how]
  refine ⟨_, hrun, ?_⟩
  intro p hp
  rw [updateLoop_eq_foldl]
  constructor
  · intro cat
    rw [catList_foldl]
    simp only [catList_clear, List.nil_append]
    constructor
    · intro hmemcat
      rcases List.mem_map.mp hmemcat with ⟨q, hqf, hqn⟩
      rcases List.mem_filter.mp hqf with ⟨hqmem, hqcat⟩
      have hqp : q = p := List.inj_on_of_nodup_map hnd hqmem hp hqn
      subst hqp
      exact (beq_iff_eq.mp hqcat)
    · intro hcat
      refine List.mem_map.mpr ⟨p, List.mem_filter.mpr ⟨hp, ?_⟩, rfl⟩
      exact beq_iff_eq.mpr hcat
  · rw [declNames_foldl _ _ _ _ (by
      simp only [declNames_clear, List.nil_append]
      exact hnd)]
    simp only [declNames_clear, List.nil_append]
    constructor
    · intro hmemdecl
      rcases List.mem_map.mp hmemdecl with ⟨q, hqf, hqn⟩
      rcases List.mem_filter.mp hqf with ⟨hqmem, hqc⟩
      have hqp : q = p := List.inj_on_of_nodup_map hnd hqmem hp hqn
      subst hqp
      exact hqc
    · intro hc
      exact List.mem_map.mpr ⟨p, List.mem_filter.mpr ⟨hp, hc⟩, rfl⟩

/-- Witness for C2: the partition property evaluated on the concrete
`github.com/acme` biome. -/
theorem updateRemotes_partition_witness :
    ∃ st, UpdateRemotesConfig false validAll acmeSvc acmeCfg0 = .ok st ∧
      ∀ p ∈ discoveredPairs acmeSvc [acmeOwner],
        (∀ cat, p.2.Name ∈ catList st.cfg (catKey cat) ↔
          rcat validAll p.2 = cat) ∧
        (p.2.Name ∈ declNames st.cfg ↔ fetchable (rcat validAll p.2) = true) :=
  updateRemotes_partition validAll acmeSvc acmeCfg0 [acmeOwner]
    (by decide) (by decide)

/-- Claim C3: During a successful `UpdateRemotes` pass (with the spec-modelled
group recording switched on, since that step of the loop is not among the
sources), every remote classified active or archived has its name removed
from the cleanup candidate set, its fetch URL and fetch refspec recorded in
its remote declaration (`remote.<name>.url` / `.fetch`), and its name
recorded under its owner's group key `remotes.<group-tag>`. -/
theorem updateRemotes_configured_records (valid : String → Bool)
    (svc : Owner → List remote) (cfg : Config) (owners : List Owner)
    (how : getOwnersRaw cfg = (owners, []))
    (hnd : ((discoveredPairs svc owners).map (fun p => p.2.Name)).Nodup) :
    ∃ st, UpdateRemotesConfig true valid svc cfg = .ok st ∧
      ∀ p ∈ discoveredPairs svc owners,
        fetchable (rcat valid p.2) = true →
          p.2.Name ∉ st.cleanup ∧
          remoteDecl st.cfg p.2.Name =
            ⟨p.2.Name,
              [⟨"url", p.2.FetchURL⟩,
                ⟨"fetch", "+refs/*:refs/remotes/" ++ p.2.Name ++ "/*"⟩,
                ⟨"tagOpt", "--no-tags"⟩]⟩ ∧
          p.2.Name ∈ groupList st.cfg p.1.RemoteGroup := by
  have hrun : UpdateRemotesConfig true valid svc cfg =
      .ok (updateLoop true valid svc owners
        { cfg := clearCats (clearDecls cfg), cleanup := declNames cfg,
          added := [] }) := by
    simp [UpdateRemotesConfig, how]
  refine ⟨_, hrun, ?_⟩
  intro p hp hc
  rw [updateLoop_eq_foldl]
  refine ⟨?_, ?_, ?_⟩
  · exact cleanup_foldl_not_mem true valid _ _ p hp hc
  · refine remoteDecl_foldl_configured true valid _ _ p hp hc hnd ?_
    intro q hq
    simp [declNames_clear]
  · exact groupList_foldl_mem valid _ _ p hp hc

/-- Witness for C3 on the concrete `github.com/acme` biome. -/
theorem updateRemotes_configured_records_witness :
    ∃ st, UpdateRemotesConfig true validAll acmeSvc acmeCfg0 = .ok st ∧
      ∀ p ∈ discoveredPairs acmeSvc [acmeOwner],
        fetchable (rcat validAll p.2) = true →
          p.2.Name ∉ st.cleanup ∧
          remoteDecl st.cfg p.2.Name =
            ⟨p.2.Name,
              [⟨"url", p.2.FetchURL⟩,
                ⟨"fetch", "+refs/*:refs/remotes/" ++ p.2.Name ++ "/*"⟩,
                ⟨"tagOpt", "--no-tags"⟩]⟩ ∧
          p.2.Name ∈ groupList st.cfg p.1.RemoteGroup :=
  updateRemotes_configured_records validAll acmeSvc acmeCfg0 [acmeOwner]
    (by decide) (by decide)

/-- Claim C4: (code_bug evidence). `ParseOwner` keeps the host exactly as
written: `GitHub.com/orirawlings` and `github.com/orirawlings` parse to
different `Owner` values with different canonical forms, although the
repository's own `TestParseOwner` expects `GitHub.com/orirawlings` to parse
to `Owner{host: "github.com"}` (and the spec calls the host
case-insensitive). The default-host clause does hold: a host-less reference
gets `github.com`. -/
theorem parseOwner_host_case_bug :
    ParseOwner "GitHub.com/orirawlings" = some ⟨"GitHub.com", "orirawlings"⟩ ∧
    ParseOwner "github.com/orirawlings" = some ⟨"github.com", "orirawlings"⟩ ∧
    Owner.string ⟨"GitHub.com", "orirawlings"⟩ ≠
      Owner.string ⟨"github.com", "orirawlings"⟩ ∧
    ParseOwner "orirawlings" = some ⟨"github.com", "orirawlings"⟩ := by decide

/-- Claim C5: (counterexample). The claim says a reference like `"host/"` with an
empty name segment is rejected; the code accepts it: the two-segment branch
performs no emptiness check, so `github.com/` parses successfully with an
empty owner name. -/
theorem parseOwner_accepts_empty_name :
    ParseOwner "github.com/" = some ⟨"github.com", ""⟩ := by decide

theorem splitSlashCh_of_no_slash (l : List Char) (h : l.count '/' = 0) :
    splitSlashCh l = [l] := by
  induction l with
  | nil => rfl
  | cons c cs ih =>
    rw [List.count_cons] at h
    have hc : c ≠ '/' := by
      intro habs
      simp [habs] at h
    have hcs : cs.count '/' = 0 := by
      simp [hc] at h
      omega
    simp [splitSlashCh, ih hcs, hc]

/-- Claim C5: (amended). `ParseOwner` fails exactly when, after stripping an
optional `http://` or `https://` scheme, the remainder contains more than one
path separator, or contains no separator while the scheme was present or the
remainder is empty. In particular a reference with exactly one separator —
including `host/` or `/name` with an empty segment — always parses. -/
theorem parseOwner_error_characterization (ownerRef : String) :
    ParseOwner ownerRef = none ↔
      (2 ≤ countSlash (cutPre "https://" (cutPre "http://" ownerRef).1).1 ∨
        (countSlash (cutPre "https://" (cutPre "http://" ownerRef).1).1 = 0 ∧
          (((cutPre "http://" ownerRef).2 ||
              (cutPre "https://" (cutPre "http://" ownerRef).1).2) = true ∨
            (cutPre "https://" (cutPre "http://" ownerRef).1).1 = ""))) := by
  have key : ∀ (s : String) (proto : Bool),
      ((match (splitSlashCh s.toList).map (fun cs => String.mk cs) with
        | [h, n] =>
          some (⟨if h = "" then defaultOwnerHost else h, n⟩ : Owner)
        | [n] =>
          if proto || n = "" then none
          else some ⟨defaultOwnerHost, n⟩
        | _ => none) = none) ↔
      (2 ≤ countSlash s ∨ (countSlash s = 0 ∧ (proto = true ∨ s = ""))) := by
    intro s proto
    have hlen : (splitSlashCh s.toList).length = countSlash s + 1 :=
      length_splitSlashCh s.toList
    cases hL : splitSlashCh s.toList with
    | nil => exact absurd hL (splitSlashCh_ne_nil _)
    | cons a t =>
      cases t with
      | nil =>
        have hcount : countSlash s = 0 := by
          rw [hL] at hlen
          simpa using hlen.symm
        have hal : a = s.toList := by
          have h2 := splitSlashCh_of_no_slash s.toList hcount
          rw [hL] at h2
          exact (List.cons.injEq a [] s.toList [] ▸ h2).1
        subst hal
        have hmk : String.mk s.toList = s := rfl
        rw [List.map_cons, List.map_nil, hmk]
        cases hproto : proto <;> by_cases hemp : s = "" <;>
          simp [hcount, hemp] <;> decide
      | cons b t2 =>
        cases t2 with
        | nil =>
          have hcount : countSlash s = 1 := by
            rw [hL] at hlen
            simpa using hlen.symm
          simp [hcount]
        | cons c3 t3 =>
          have hcount : 2 ≤ countSlash s := by
            rw [hL] at hlen
            simp at hlen
            omega
          simp [hcount]
  exact key (cutPre "https://" (cutPre "http://" ownerRef).1).1
    ((cutPre "http://" ownerRef).2 ||
      (cutPre "https://" (cutPre "http://" ownerRef).1).2)

/-- Claim C6: When the transform callback fails, `Edit` returns an error that
wraps the callback's original error (`transformFailed e` carries `e`), never
serializes the in-memory configuration back to the temp file, and signals
failure to the helper, so the external workflow aborts and the persisted
configuration is exactly what it was before the call. -/
theorem edit_transform_error_rollback {ε : Type} (persisted cfg : Config)
    (transform : Config → Except ε (Bool × Config))
    (save : Config → Option String) (e : ε) (h : transform cfg = .error e) :
    (editorEdit (.path (.ok cfg)) transform save).result =
      .error (.transformFailed e) ∧
    (editorEdit (.path (.ok cfg)) transform save).savedTemp = none ∧
    (editorEdit (.path (.ok cfg)) transform save).helperSignal = some false ∧
    commitEdit persisted (editorEdit (.path (.ok cfg)) transform save) =
      persisted := by
  simp [editorEdit, h, commitEdit]

/-- Witness for C6: a transform that always fails, run on empty
configurations. -/
theorem edit_transform_error_rollback_witness :
    (editorEdit (ε := String) (.path (.ok ⟨[]⟩))
        (fun _ => .error "boom") (fun _ => none)).result =
      .error (.transformFailed "boom") ∧
    (editorEdit (ε := String) (.path (.ok ⟨[]⟩))
        (fun _ => .error "boom") (fun _ => none)).savedTemp = none ∧
    (editorEdit (ε := String) (.path (.ok ⟨[]⟩))
        (fun _ => .error "boom") (fun _ => none)).helperSignal = some false ∧
    commitEdit ⟨[]⟩ (editorEdit (ε := String) (.path (.ok ⟨[]⟩))
        (fun _ => .error "boom") (fun _ => none)) = ⟨[]⟩ :=
  edit_transform_error_rollback ⟨[]⟩ ⟨[]⟩ (fun _ => .error "boom")
    (fun _ => none) "boom" rfl

theorem written_foldl_Write (cmds : List String) (r : refUpdater) :
    (cmds.foldl refUpdater.Write r).written = r.written ++ cmds ∧
    (cmds.foldl refUpdater.Write r).closed = r.closed := by
  induction cmds generalizing r with
  | nil => simp
  | cons c cs ih =>
    rw [List.foldl_cons]
    rcases ih (r.Write c) with ⟨h1, h2⟩
    refine ⟨?_, h2⟩
    rw [h1]
    simp [refUpdater.Write]

/-- Claim C7: A ref-update session writes exactly the line `start` before the
queued per-ref commands, and `Close` appends exactly `prepare` then `commit`
(one write of `"prepare\ncommit\n"`) and closes the input; `Close` returns
`ok` if and only if the subprocess exits zero, and any failure carries the
captured combined output (and exit code) of the subprocess. -/
theorem refUpdater_protocol (cmds : List String) (env : RefUpdaterEnv) :
    ((cmds.foldl refUpdater.Write newRefUpdater).Close env).1.written =
      ["start\n"] ++ cmds ++ ["prepare\ncommit\n"] ∧
    joinStr ((cmds.foldl refUpdater.Write newRefUpdater).Close env).1.written =
      "start\n" ++ joinStr cmds ++ "prepare\ncommit\n" ∧
    ((cmds.foldl refUpdater.Write newRefUpdater).Close env).1.closed = true ∧
    (((cmds.foldl refUpdater.Write newRefUpdater).Close env).2 = .ok () ↔
      env.exitCode = 0) ∧
    (∀ er, ((cmds.foldl refUpdater.Write newRefUpdater).Close env).2 =
        .error er → er.output = env.output ∧ er.exitCode = env.exitCode) := by
  rcases written_foldl_Write cmds newRefUpdater with ⟨h1, -⟩
  have hw : ((cmds.foldl refUpdater.Write newRefUpdater).Close env).1.written =
      ["start\n"] ++ cmds ++ ["prepare\ncommit\n"] := by
    show (cmds.foldl refUpdater.Write newRefUpdater).written ++
      ["prepare\ncommit\n"] = _
    rw [h1]
    simp [newRefUpdater]
  refine ⟨hw, ?_, ?_, ?_, ?_⟩
  · rw [hw]
    rw [joinStr_append, joinStr_append]
    apply String.ext
    simp [joinStr]
  · simp [refUpdater.Close]
  · by_cases hz : env.exitCode = 0 <;> simp [refUpdater.Close, hz]
  · intro er her
    by_cases hz : env.exitCode = 0
    · simp [refUpdater.Close, hz] at her
    · simp [refUpdater.Close, hz] at her
      simp [← her]

/-- Witness for C7: one queued symref update, subprocess failing with exit
code 1 and output `"fatal: ref error"`. -/
theorem refUpdater_protocol_witness :
    ((["option no-deref\nsymref-update refs/remotes/x/HEAD refs/heads/main\n"].foldl
        refUpdater.Write newRefUpdater).Close ⟨1, "fatal: ref error"⟩).1.written =
      ["start\n"] ++
        ["option no-deref\nsymref-update refs/remotes/x/HEAD refs/heads/main\n"] ++
        ["prepare\ncommit\n"] ∧
    joinStr ((["option no-deref\nsymref-update refs/remotes/x/HEAD refs/heads/main\n"].foldl
        refUpdater.Write newRefUpdater).Close ⟨1, "fatal: ref error"⟩).1.written =
      "start\n" ++
        joinStr ["option no-deref\nsymref-update refs/remotes/x/HEAD refs/heads/main\n"] ++
        "prepare\ncommit\n" ∧
    ((["option no-deref\nsymref-update refs/remotes/x/HEAD refs/heads/main\n"].foldl
        refUpdater.Write newRefUpdater).Close ⟨1, "fatal: ref error"⟩).1.closed = true ∧
    (((["option no-deref\nsymref-update refs/remotes/x/HEAD refs/heads/main\n"].foldl
        refUpdater.Write newRefUpdater).Close ⟨1, "fatal: ref error"⟩).2 = .ok () ↔
      (1 : Nat) = 0) ∧
    (∀ er, ((["option no-deref\nsymref-update refs/remotes/x/HEAD refs/heads/main\n"].foldl
        refUpdater.Write newRefUpdater).Close ⟨1, "fatal: ref error"⟩).2 =
        .error er → er.output = "fatal: ref error" ∧ er.exitCode = 1) :=
  refUpdater_protocol
    ["option no-deref\nsymref-update refs/remotes/x/HEAD refs/heads/main\n"]
    ⟨1, "fatal: ref error"⟩

theorem getOwnersFold_all_parse (l : List String)
    (acc : List Owner × List String)
    (hf : ∀ x ∈ l, ∃ o, ParseOwner x = some o) :
    (l.foldl
      (fun acc s =>
        match ParseOwner s with
        | some o => (acc.1 ++ [o], acc.2)
        | none => (acc.1, acc.2 ++ [s])) acc) =
      (acc.1 ++ l.map (fun x => (ParseOwner x).getD ⟨"", ""⟩), acc.2) := by
  induction l generalizing acc with
  | nil => simp
  | cons x xs ih =>
    rcases hf x (by simp) with ⟨o, ho⟩
    rw [List.foldl_cons, ih _ (fun y hy => hf y (by simp [hy]))]
    simp [ho]

theorem OwnersOf_all_parse (cfg : Config)
    (hf : ∀ x ∈ ownersList cfg, ∃ o, ParseOwner x = some o) :
    OwnersOf cfg =
      .ok ((ownersList cfg).map (fun x => (ParseOwner x).getD ⟨"", ""⟩)) := by
  unfold OwnersOf getOwnersRaw
  rw [getOwnersFold_all_parse _ _ hf]
  simp

/-- Claim C8: When every owner in the batch validates, `AddOwners` succeeds and
the stored owner list becomes the sorted, deduplicated union of the previously
stored references and the canonical forms of the batch; `Owners()` then
returns exactly the owners whose canonical forms make up that stored list;
and running `AddOwners` again with the same batch leaves the stored list
unchanged. (The `hparse` hypothesis says the involved references are
canonical: they parse back to an owner whose string form is themselves, which
holds for every reference `AddOwners` itself would store.) -/
theorem addOwners_roundtrip (validate : Owner → Option String)
    (owners : List Owner) (cfg : Config)
    (hval : ∀ o ∈ owners, validate o = none)
    (hparse : ∀ x ∈ ownersList cfg ++ owners.map Owner.string,
      ∃ o, ParseOwner x = some o ∧ o.string = x) :
    ∃ cfg2, AddOwners validate owners cfg = (.ok (), cfg2) ∧
      ownersList cfg2 =
        SortedUnique (ownersList cfg ++ owners.map Owner.string) ∧
      (∀ x, x ∈ ownersList cfg2 ↔
        (x ∈ ownersList cfg ∨ ∃ o ∈ owners, o.string = x)) ∧
      (ownersList cfg2).Sorted (· ≤ ·) ∧
      (ownersList cfg2).Nodup ∧
      (∃ os, OwnersOf cfg2 = .ok os ∧ os.map Owner.string = ownersList cfg2) ∧
      ownersList (AddOwners validate owners cfg2).2 = ownersList cfg2 := by
  have herrs : validateOwners validate owners = [] := by
    unfold validateOwners
    rw [List.filterMap_eq_nil_iff]
    intro o ho
    simp [hval o ho]
  have hcall : AddOwners validate owners cfg =
      (.ok (), AddOwnersTransform owners cfg) := by
    simp [AddOwners, herrs]
  have hL : ownersList (AddOwnersTransform owners cfg) =
      SortedUnique (ownersList cfg ++ owners.map Owner.string) :=
    ownersList_setOwnersList _ _
  refine ⟨AddOwnersTransform owners cfg, hcall, hL, ?_, ?_, ?_, ?_, ?_⟩
  · intro x
    rw [hL, mem_SortedUnique, List.mem_append, List.mem_map]
  · rw [hL]
    exact sorted_SortedUnique _
  · rw [hL]
    exact nodup_SortedUnique _
  · have hf : ∀ x ∈ ownersList (AddOwnersTransform owners cfg),
        ∃ o, ParseOwner x = some o := by
      intro x hx
      rw [hL, mem_SortedUnique] at hx
      rcases hparse x hx with ⟨o, ho, -⟩
      exact ⟨o, ho⟩
    refine ⟨_, OwnersOf_all_parse _ hf, ?_⟩
    rw [List.map_map]
    refine List.map_congr_left ?_ |>.trans (List.map_id _)
    intro x hx
    rw [hL, mem_SortedUnique] at hx
    rcases hparse x hx with ⟨o, ho, hos⟩
    simp [Function.comp, ho, hos]
  · have hcall2 : AddOwners validate owners (AddOwnersTransform owners cfg) =
        (.ok (), AddOwnersTransform owners (AddOwnersTransform owners cfg)) := by
      simp [AddOwners, herrs]
    rw [hcall2]
    show ownersList (AddOwnersTransform owners (AddOwnersTransform owners cfg)) = _
    rw [show ownersList (AddOwnersTransform owners (AddOwnersTransform owners cfg)) =
      SortedUnique (ownersList (AddOwnersTransform owners cfg) ++
        owners.map Owner.string) from ownersList_setOwnersList _ _]
    rw [hL]
    apply SortedUnique_append_subset
    · exact sorted_SortedUnique _
    · exact nodup_SortedUnique _
    · intro x hx
      rw [mem_SortedUnique]
      exact List.mem_append_right _ hx

/-- Witness for C8: one stored owner, a batch with a duplicate entry. -/
theorem addOwners_roundtrip_witness :
    ∃ cfg2,
      AddOwners (fun _ => none)
          [⟨"github.com", "alpha"⟩, ⟨"github.com", "alpha"⟩]
          ⟨[⟨"biome", [⟨"owners", "github.com/zeta"⟩], []⟩]⟩ =
        (.ok (), cfg2) ∧
      ownersList cfg2 =
        SortedUnique (ownersList ⟨[⟨"biome", [⟨"owners", "github.com/zeta"⟩], []⟩]⟩ ++
          [Owner.mk "github.com" "alpha", Owner.mk "github.com" "alpha"].map
            Owner.string) ∧
      (∀ x, x ∈ ownersList cfg2 ↔
        (x ∈ ownersList ⟨[⟨"biome", [⟨"owners", "github.com/zeta"⟩], []⟩]⟩ ∨
          ∃ o ∈ [Owner.mk "github.com" "alpha", Owner.mk "github.com" "alpha"],
            o.string = x)) ∧
      (ownersList cfg2).Sorted (· ≤ ·) ∧
      (ownersList cfg2).Nodup ∧
      (∃ os, OwnersOf cfg2 = .ok os ∧ os.map Owner.string = ownersList cfg2) ∧
      ownersList (AddOwners (fun _ => none)
          [⟨"github.com", "alpha"⟩, ⟨"github.com", "alpha"⟩] cfg2).2 =
        ownersList cfg2 :=
  addOwners_roundtrip (fun _ => none)
    [⟨"github.com", "alpha"⟩, ⟨"github.com", "alpha"⟩]
    ⟨[⟨"biome", [⟨"owners", "github.com/zeta"⟩], []⟩]⟩
    (fun o _ => rfl)
    (by
      intro x hx
      rw [show ownersList ⟨[⟨"biome", [⟨"owners", "github.com/zeta"⟩], []⟩]⟩ ++
        [Owner.mk "github.com" "alpha", Owner.mk "github.com" "alpha"].map
          Owner.string =
        ["github.com/zeta", "github.com/alpha", "github.com/alpha"] from by
          decide] at hx
      simp at hx
      rcases hx with rfl | rfl
      · exact ⟨⟨"github.com", "zeta"⟩, by decide, by decide⟩
      · exact ⟨⟨"github.com", "alpha"⟩, by decide, by decide⟩)

theorem validateOwners_map_fst (validate : Owner → Option String)
    (owners : List Owner) :
    (validateOwners validate owners).map Prod.fst =
      owners.filter (fun o => (validate o).isSome) := by
  induction owners with
  | nil => rfl
  | cons o os ih =>
    cases hv : validate o <;>
      simp [validateOwners, List.filterMap_cons, hv, List.filter_cons, ih] <;>
      simpa [validateOwners] using ih

/-- Claim C9: When the directory service rejects at least one owner in the
batch, `AddOwners` returns an aggregate error with exactly one entry per
invalid owner — each entry naming that owner and carrying the service's
error — and performs no configuration edit: the configuration after the call
is exactly the configuration before it. -/
theorem addOwners_validation_failure (validate : Owner → Option String)
    (owners : List Owner) (cfg : Config)
    (h : ∃ o ∈ owners, (validate o).isSome = true) :
    ∃ errs, AddOwners validate owners cfg = (.error errs, cfg) ∧
      errs ≠ [] ∧
      errs.map Prod.fst = owners.filter (fun o => (validate o).isSome) ∧
      ∀ pr ∈ errs, validate pr.1 = some pr.2 := by
  rcases h with ⟨o, ho, hsome⟩
  rcases Option.isSome_iff_exists.mp hsome with ⟨msg, hmsg⟩
  have hmem : (o, msg) ∈ validateOwners validate owners := by
    unfold validateOwners
    exact List.mem_filterMap.mpr ⟨o, ho, by simp [hmsg]⟩
  have hne : validateOwners validate owners ≠ [] := by
    intro habs
    rw [habs] at hmem
    cases hmem
  have hnotempty : (validateOwners validate owners).isEmpty = false := by
    rw [List.isEmpty_eq_false_iff_exists_mem]
    exact ⟨_, hmem⟩
  refine ⟨validateOwners validate owners, ?_, hne, validateOwners_map_fst _ _, ?_⟩
  · simp [AddOwners, hnotempty]
  · intro pr hpr
    rcases List.mem_filterMap.mp hpr with ⟨a, ha, hfa⟩
    cases hv : validate a with
    | none => simp [hv] at hfa
    | some m =>
      simp [hv] at hfa
      rw [← hfa]
      exact hv

/-- Witness for C9: a service rejecting `github.com/bad` but accepting
`github.com/good`. -/
theorem addOwners_validation_failure_witness :
    ∃ errs,
      AddOwners
          (fun o => if o = ⟨"github.com", "bad"⟩ then some "no such owner"
            else none)
          [⟨"github.com", "good"⟩, ⟨"github.com", "bad"⟩]
          ⟨[⟨"biome", [⟨"version", "1"⟩], []⟩]⟩ =
        (.error errs, ⟨[⟨"biome", [⟨"version", "1"⟩], []⟩]⟩) ∧
      errs ≠ [] ∧
      errs.map Prod.fst =
        [Owner.mk "github.com" "good", Owner.mk "github.com" "bad"].filter
          (fun o =>
            ((if o = ⟨"github.com", "bad"⟩ then some "no such owner"
              else none) : Option String).isSome) ∧
      ∀ pr ∈ errs,
        (if pr.1 = ⟨"github.com", "bad"⟩ then some "no such owner"
          else none) = some pr.2 :=
  addOwners_validation_failure _ _ _
    ⟨⟨"github.com", "bad"⟩, by decide, by decide⟩

/-- Claim C10: (counterexample). The claim ties the definedness of
`repository.Remote` exactly to the `https://` prefix; but the slice `URL[8:]`
is in bounds for ANY URL of at least 8 bytes: on the 8-character URL
`"abcdefgh"`, which does not start with `https://`, the total embedding still
takes the defined branch. -/
theorem repositoryRemote_defined_without_https :
    (repository.Remote ⟨false, false, false, "abcdefgh", none⟩).isSome = true ∧
    strStarts "https://" "abcdefgh" = false := by decide

/-- Claim C10: (amended). The error branch of the total embedding of
`repository.Remote` is unreachable exactly when the URL is at least 8 bytes
long; the `https://` precondition — being 8 characters — is sufficient but
not necessary, and under it the conversion yields the remote whose name is
the URL with its first 8 characters removed and whose fetch URL is the URL
with `".git"` appended, the three status flags copied over. -/
theorem repositoryRemote_characterization (r : repository) :
    ((repository.Remote r).isSome = true ↔ 8 ≤ strLen r.URL) ∧
    (strStarts "https://" r.URL = true →
      ∃ rem, repository.Remote r = some rem ∧
        rem.Name = strDrop r.URL 8 ∧
        rem.FetchURL = r.URL ++ ".git" ∧
        rem.Archived = r.IsArchived ∧
        rem.Disabled = r.IsDisabled ∧
        rem.Locked = r.IsLocked) := by
  constructor
  · unfold repository.Remote
    by_cases hlen : 8 ≤ strLen r.URL
    · simp only [hlen, if_true]
      cases r.DefaultBranchRef <;> simp
    · simp [hlen]
  · intro hpre
    have hlen : 8 ≤ strLen r.URL := by
      have hp : ("https://".toList).IsPrefix r.URL.toList := by
        rw [← List.isPrefixOf_iff_prefix]
        exact hpre
      have := hp.length_le
      simpa [strLen] using this
    unfold repository.Remote
    simp only [hlen, if_true]
    cases r.DefaultBranchRef <;> exact ⟨_, rfl, rfl, rfl, rfl, rfl, rfl⟩

/-- Witness for C10 on a well-formed GitHub URL. -/
theorem repositoryRemote_characterization_witness :
    (((repository.Remote ⟨false, true, false, "https://github.com/acme/bar",
        some ⟨"main", "refs/heads/"⟩⟩).isSome = true) ↔
      8 ≤ strLen "https://github.com/acme/bar") ∧
    (strStarts "https://" "https://github.com/acme/bar" = true →
      ∃ rem, repository.Remote ⟨false, true, false,
          "https://github.com/acme/bar", some ⟨"main", "refs/heads/"⟩⟩ =
          some rem ∧
        rem.Name = strDrop "https://github.com/acme/bar" 8 ∧
        rem.FetchURL = "https://github.com/acme/bar" ++ ".git" ∧
        rem.Archived = true ∧
        rem.Disabled = false ∧
        rem.Locked = false) :=
  repositoryRemote_characterization
    ⟨false, true, false, "https://github.com/acme/bar",
      some ⟨"main", "refs/heads/"⟩⟩

end GhBiome
